import Mathlib

/-!
Verification development for the party-playlist generator (`src/app.py`).

The Python source is shallowly embedded: dictionaries become association
lists or functions, Python `random.shuffle` calls become explicit shuffle
parameters (hypothesised to be permutations where a property needs it),
floats become exact rationals, and Python ints become `Nat`/`Int` with the
source's own guards.  All definitions follow the source code of
`filter_tracks`, `parse_release_year`, `get_genre_recommendations`,
`allocate_tracks` and `get_top_consensus_tracks`.
-/

/-- A track record, as assembled by `get_user_playlists_data` in the source:
only the fields the core algorithms read are kept. -/
structure Track where
  id : String
  name : String := ""
  user_id : String
  genres : List String := []
  popularity : Int := 0
  album_release_date : String := ""
  available_markets : List String := []
  artist_ids : List String := []
deriving DecidableEq, Repr

/-- Insertion-ordered deduplication, mirroring Python `dict` key order
(first occurrence wins). -/
def dedupFirstAux (seen : List String) : List String → List String
  | [] => []
  | x :: xs =>
    if seen.contains x then dedupFirstAux seen xs
    else x :: dedupFirstAux (x :: seen) xs

/-- Keys of a Python dict built by repeated insertion: order of first
occurrence, duplicates dropped. -/
def dedupFirst (l : List String) : List String := dedupFirstAux [] l

/-- `d.get(u, 0)` on a weight dict represented as an association list. -/
def wlookup (w : List (String × Rat)) (u : String) : Rat :=
  match w.find? (fun p => p.1 == u) with
  | some p => p.2
  | none => 0

/-- Python `int()` applied to a rational: truncation toward zero
(`tdiv` is T-division, matching Python `int()` on exact rationals). -/
def pyInt (q : Rat) : Int := q.num.tdiv (q.den : Int)

/-- Kernel-computable rational addition. -/
def radd (a b : Rat) : Rat :=
  mkRat (a.num * (b.den : Int) + b.num * (a.den : Int)) (a.den * b.den)

/-- Kernel-computable rational subtraction. -/
def rsub (a b : Rat) : Rat :=
  mkRat (a.num * (b.den : Int) - b.num * (a.den : Int)) (a.den * b.den)

/-- Kernel-computable rational multiplication. -/
def rmul (a b : Rat) : Rat := mkRat (a.num * b.num) (a.den * b.den)

/-- Kernel-computable rational division. -/
def rdiv (a b : Rat) : Rat :=
  if 0 ≤ b.num then mkRat (a.num * (b.den : Int)) (a.den * b.num.toNat)
  else mkRat (-(a.num * (b.den : Int))) (a.den * (-b.num).toNat)

/-- Kernel-computable absolute value. -/
def rabs (q : Rat) : Rat := mkRat (q.num.natAbs : Int) q.den

/-- Python `sum(...)` over rationals. -/
def rsum (l : List Rat) : Rat := l.foldr radd 0

/-- Python string comparison: code-point lexicographic order on the
character lists, by structural recursion. -/
def charListLe : List Char → List Char → Bool
  | [], _ => true
  | _ :: _, [] => false
  | a :: as, b :: bs =>
    if a < b then true else if b < a then false else charListLe as bs

/-- `a <= b` on Python strings. -/
def strLe (a b : String) : Bool := charListLe a.data b.data

/-- Value of a nonempty all-digit character list, else `none`. -/
def digitsValAux (acc : Nat) : List Char → Option Nat
  | [] => some acc
  | c :: cs =>
    if c.isDigit then digitsValAux (acc * 10 + (c.toNat - '0'.toNat)) cs else none

/-- Python `int(s)` on a plain string: optional sign, then digits.
(Python also tolerates surrounding whitespace and digit-group underscores;
those never occur in the `YYYY-…` prefixes this is applied to.) -/
def pyIntOfString (cs : List Char) : Option Int :=
  match cs with
  | '-' :: rest => if rest.isEmpty then none else (digitsValAux 0 rest).map (fun n => -(n : Int))
  | '+' :: rest => if rest.isEmpty then none else (digitsValAux 0 rest).map (fun n => (n : Int))
  | rest => if rest.isEmpty then none else (digitsValAux 0 rest).map (fun n => (n : Int))

/-- `parse_release_year` from the source: `int(release_date.split('-')[0])`,
`None` on failure.  `split('-')[0]` is exactly the prefix before the first
dash (the whole string if there is none). -/
def parse_release_year (s : String) : Option Int :=
  pyIntOfString (s.data.takeWhile (fun c => c ≠ '-'))

/-- One step of a stable insertion sort: `x` passes elements that are
strictly before it under `le` and lands before the first tie or
later element, exactly the placement a stable sort gives. -/
def insertLe (le : α → α → Bool) (x : α) : List α → List α
  | [] => [x]
  | y :: ys => if le y x && !(le x y) then y :: insertLe le x ys else x :: y :: ys

/-- Stable sort with comparator `le` ("`a` may come before `b`"):
the semantics of Python's stable `list.sort`, by structural recursion so
that the kernel can evaluate it. -/
def pySort (le : α → α → Bool) : List α → List α
  | [] => []
  | x :: xs => insertLe le x (pySort le xs)

lemma insertLe_perm (le : α → α → Bool) (x : α) :
    ∀ l : List α, (insertLe le x l).Perm (x :: l)
  | [] => List.Perm.refl _
  | y :: ys => by
    simp only [insertLe]
    split
    · exact ((insertLe_perm le x ys).cons y).trans (List.Perm.swap x y ys)
    · exact List.Perm.refl _

lemma pySort_perm (le : α → α → Bool) :
    ∀ l : List α, (pySort le l).Perm l
  | [] => List.Perm.refl _
  | x :: xs => (insertLe_perm le x (pySort le xs)).trans ((pySort_perm le xs).cons x)

lemma contains_eq_mem (l : List String) (a : String) :
    l.contains a = true ↔ a ∈ l := by
  simp [List.contains_iff_exists_mem_beq]

lemma insertLe_pairwise (le : α → α → Bool)
    (htrans : ∀ a b c, le a b = true → le b c = true → le a c = true)
    (htot : ∀ a b, le a b || le b a) (x : α) :
    ∀ l : List α, l.Pairwise (fun a b => le a b = true) →
      (insertLe le x l).Pairwise (fun a b => le a b = true)
  | [], _ => by simp [insertLe]
  | y :: ys, h => by
    rw [List.pairwise_cons] at h
    have hxy_of_not : le y x = false → le x y = true := by
      intro hyx
      have := htot x y
      rw [hyx, Bool.or_false] at this
      exact this
    simp only [insertLe]
    split
    case isTrue hc =>
      rw [Bool.and_eq_true, Bool.not_eq_true'] at hc
      rw [List.pairwise_cons]
      refine ⟨?_, insertLe_pairwise le htrans htot x ys h.2⟩
      intro z hz
      rcases List.mem_cons.mp ((insertLe_perm le x ys).mem_iff.mp hz) with rfl | hz
      · exact hc.1
      · exact h.1 z hz
    case isFalse hc =>
      rw [Bool.and_eq_true, Bool.not_eq_true', not_and_or, Bool.not_eq_true,
        Bool.not_eq_false] at hc
      have hxy : le x y = true := by
        rcases hc with hc | hc
        · exact hxy_of_not hc
        · exact hc
      rw [List.pairwise_cons]
      refine ⟨?_, List.pairwise_cons.mpr h⟩
      intro z hz
      rcases List.mem_cons.mp hz with rfl | hz
      · exact hxy
      · exact htrans x y z hxy (h.1 z hz)

lemma pySort_pairwise (le : α → α → Bool)
    (htrans : ∀ a b c, le a b = true → le b c = true → le a c = true)
    (htot : ∀ a b, le a b || le b a) :
    ∀ l : List α, (pySort le l).Pairwise (fun a b => le a b = true)
  | [] => List.Pairwise.nil
  | x :: xs => insertLe_pairwise le htrans htot x _ (pySort_pairwise le htrans htot xs)

/-- Everything kept by `take n` is `le`-before everything in `drop n`
of a pairwise-sorted list. -/
lemma pairwise_take_drop {α : Type _} {P : α → α → Prop} {l : List α}
    (h : l.Pairwise P) (n : Nat) :
    ∀ a ∈ l.take n, ∀ b ∈ l.drop n, P a b := by
  have hsplit : l.take n ++ l.drop n = l := List.take_append_drop n l
  rw [← hsplit] at h
  exact (List.pairwise_append.mp h).2.2

lemma mem_dedupFirstAux (seen l : List String) (x : String) :
    x ∈ dedupFirstAux seen l ↔ x ∈ l ∧ x ∉ seen := by
  induction l generalizing seen with
  | nil => simp [dedupFirstAux]
  | cons a as ih =>
    simp only [dedupFirstAux]
    split
    case isTrue hmem =>
      rw [contains_eq_mem] at hmem
      rw [ih]
      constructor
      · rintro ⟨h1, h2⟩; exact ⟨List.mem_cons_of_mem a h1, h2⟩
      · rintro ⟨h1, h2⟩
        rcases List.mem_cons.mp h1 with rfl | h1
        · exact absurd hmem h2
        · exact ⟨h1, h2⟩
    case isFalse hmem =>
      rw [contains_eq_mem] at hmem
      simp only [List.mem_cons, ih, List.mem_cons]
      constructor
      · rintro (rfl | ⟨h1, h2⟩)
        · exact ⟨Or.inl rfl, hmem⟩
        · exact ⟨Or.inr h1, fun hs => h2 (Or.inr hs)⟩
      · rintro ⟨rfl | h1, h2⟩
        · exact Or.inl rfl
        · rcases Decidable.em (x = a) with rfl | hne
          · exact Or.inl rfl
          · exact Or.inr ⟨h1, fun hs => hs.elim (fun h => hne h) (fun h => h2 h)⟩

lemma mem_dedupFirst (l : List String) (x : String) :
    x ∈ dedupFirst l ↔ x ∈ l := by
  rw [dedupFirst, mem_dedupFirstAux]
  simp

lemma dedupFirstAux_nodup (seen l : List String) :
    (dedupFirstAux seen l).Nodup := by
  induction l generalizing seen with
  | nil => exact List.nodup_nil
  | cons a as ih =>
    simp only [dedupFirstAux]
    split
    · exact ih seen
    · rw [List.nodup_cons]
      refine ⟨fun hmem => ?_, ih (a :: seen)⟩
      exact ((mem_dedupFirstAux (a :: seen) as a).mp hmem).2 (List.mem_cons_self a seen)

lemma dedupFirst_nodup (l : List String) : (dedupFirst l).Nodup :=
  dedupFirstAux_nodup [] l

/-- `filter_tracks` from the source.  The per-artist cap keeps a running
count keyed by the sorted tuple of `artist_ids`; `max_per_artist = 0`
models a falsy cap (no per-artist limit), matching `if max_per_artist and ...`. -/
def filterTracksAux (selected_genres : List String)
    (year_range : Option (Int × Int)) (popularity_range : Option (Int × Int))
    (market : String) (market_filter_enabled : Bool) (max_per_artist : Nat)
    (artist_count : List String → Nat) : List Track → List Track
  | [] => []
  | t :: ts =>
    let keep :=
      (selected_genres.isEmpty || selected_genres.any (fun g => t.genres.contains g)) &&
      (match year_range with
       | none => true
       | some (lo, hi) =>
         match parse_release_year t.album_release_date with
         | none => false
         | some y => decide (lo ≤ y) && decide (y ≤ hi)) &&
      (match popularity_range with
       | none => true
       | some (lo, hi) => decide (lo ≤ t.popularity) && decide (t.popularity ≤ hi)) &&
      (!(market_filter_enabled && market ≠ "") || t.available_markets.contains market)
    let akey := pySort strLe t.artist_ids
    if keep then
      if max_per_artist ≠ 0 && artist_count akey ≥ max_per_artist then
        filterTracksAux selected_genres year_range popularity_range market
          market_filter_enabled max_per_artist artist_count ts
      else
        t :: filterTracksAux selected_genres year_range popularity_range market
          market_filter_enabled max_per_artist
          (fun k => if k = akey then artist_count akey + 1 else artist_count k) ts
    else
      filterTracksAux selected_genres year_range popularity_range market
        market_filter_enabled max_per_artist artist_count ts

/-- `filter_tracks(tracks, selected_genres, year_range, popularity_range,
market, market_filter_enabled, max_per_artist)` from the source. -/
def filter_tracks (tracks : List Track) (selected_genres : List String)
    (year_range : Option (Int × Int)) (popularity_range : Option (Int × Int))
    (market : String) (market_filter_enabled : Bool) (max_per_artist : Nat) :
    List Track :=
  filterTracksAux selected_genres year_range popularity_range market
    market_filter_enabled max_per_artist (fun _ => 0) tracks

/-- Modelled from the spec: `filter_tracks` with the year predicate removed
("if no range is provided, no year filtering occurs") — used only to compare
against the source definition when `year_range` is absent. -/
def filterTracksYearlessAux (selected_genres : List String)
    (popularity_range : Option (Int × Int))
    (market : String) (market_filter_enabled : Bool) (max_per_artist : Nat)
    (artist_count : List String → Nat) : List Track → List Track
  | [] => []
  | t :: ts =>
    let keep :=
      (selected_genres.isEmpty || selected_genres.any (fun g => t.genres.contains g)) &&
      (match popularity_range with
       | none => true
       | some (lo, hi) => decide (lo ≤ t.popularity) && decide (t.popularity ≤ hi)) &&
      (!(market_filter_enabled && market ≠ "") || t.available_markets.contains market)
    let akey := pySort strLe t.artist_ids
    if keep then
      if max_per_artist ≠ 0 && artist_count akey ≥ max_per_artist then
        filterTracksYearlessAux selected_genres popularity_range market
          market_filter_enabled max_per_artist artist_count ts
      else
        t :: filterTracksYearlessAux selected_genres popularity_range market
          market_filter_enabled max_per_artist
          (fun k => if k = akey then artist_count akey + 1 else artist_count k) ts
    else
      filterTracksYearlessAux selected_genres popularity_range market
        market_filter_enabled max_per_artist artist_count ts

/-- Modelled from the spec: top level of the year-free filter. -/
def filterTracksYearless (tracks : List Track) (selected_genres : List String)
    (popularity_range : Option (Int × Int)) (market : String)
    (market_filter_enabled : Bool) (max_per_artist : Nat) : List Track :=
  filterTracksYearlessAux selected_genres popularity_range market
    market_filter_enabled max_per_artist (fun _ => 0) tracks

lemma filterTracksAux_year_mem (gs : List String) (lo hi : Int)
    (pr : Option (Int × Int)) (mk : String) (en : Bool) (cap : Nat) :
    ∀ (tracks : List Track) (ac : List String → Nat) (t : Track),
      t ∈ filterTracksAux gs (some (lo, hi)) pr mk en cap ac tracks →
      ∃ y, parse_release_year t.album_release_date = some y ∧ lo ≤ y ∧ y ≤ hi := by
  intro tracks
  induction tracks with
  | nil => intro ac t h; simp [filterTracksAux] at h
  | cons a ts ih =>
    intro ac t h
    simp only [filterTracksAux] at h
    split at h
    case isTrue hk =>
      split at h
      case isTrue hcap => exact ih _ _ h
      case isFalse hcap =>
        rcases List.mem_cons.mp h with rfl | h'
        · simp only [Bool.and_eq_true] at hk
          obtain ⟨⟨⟨-, hy⟩, -⟩, -⟩ := hk
          revert hy
          cases hpy : parse_release_year t.album_release_date with
          | none => intro hy; cases hy
          | some y =>
            intro hy
            simp only [Bool.and_eq_true, decide_eq_true_eq] at hy
            exact ⟨y, rfl, hy.1, hy.2⟩
        · exact ih _ _ h'
    case isFalse hk => exact ih _ _ h

lemma filterTracksAux_none_eq_yearless (gs : List String)
    (pr : Option (Int × Int)) (mk : String) (en : Bool) (cap : Nat) :
    ∀ (tracks : List Track) (ac : List String → Nat),
      filterTracksAux gs none pr mk en cap ac tracks =
      filterTracksYearlessAux gs pr mk en cap ac tracks := by
  intro tracks
  induction tracks with
  | nil => intro ac; rfl
  | cons a ts ih =>
    intro ac
    simp only [filterTracksAux, filterTracksYearlessAux, Bool.and_true]
    split
    · split
      · exact ih _
      · rw [ih _]
    · exact ih _

/-- C8: with a `year_range = (lo, hi)`, every surviving track has a parsable
release year inside the range (so unparsable-year tracks are dropped); with no
`year_range`, `filter_tracks` coincides with the year-free filter, so no
year-based filtering occurs. -/
theorem C8_year_filter_policy (gs : List String) (pr : Option (Int × Int))
    (mk : String) (en : Bool) (cap : Nat) :
    (∀ (lo hi : Int) (tracks : List Track) (t : Track),
        t ∈ filter_tracks tracks gs (some (lo, hi)) pr mk en cap →
        ∃ y, parse_release_year t.album_release_date = some y ∧ lo ≤ y ∧ y ≤ hi) ∧
    (∀ (tracks : List Track),
        filter_tracks tracks gs none pr mk en cap =
        filterTracksYearless tracks gs pr mk en cap) := by
  constructor
  · intro lo hi tracks t h
    exact filterTracksAux_year_mem gs lo hi pr mk en cap tracks _ t h
  · intro tracks
    exact filterTracksAux_none_eq_yearless gs pr mk en cap tracks _

/-- Witness for C8 at a concrete input: a 1999 track passes the (1990, 2005)
year filter, and an unparsable-date track passes when no range is given. -/
theorem C8_year_filter_policy_witness :
    (∃ y, parse_release_year "1999-03-01" = some y ∧ (1990 : Int) ≤ y ∧ y ≤ 2005) ∧
    filter_tracks [{ id := "t1", user_id := "a", album_release_date := "unknown" }]
      [] none none "" false 0 =
      filterTracksYearless [{ id := "t1", user_id := "a", album_release_date := "unknown" }]
      [] none "" false 0 := by
  refine ⟨(C8_year_filter_policy [] none "" false 0).1 1990 2005
    [{ id := "t1", user_id := "a", album_release_date := "1999-03-01" }]
    { id := "t1", user_id := "a", album_release_date := "1999-03-01" } ?_,
    (C8_year_filter_policy [] none "" false 0).2 _⟩
  decide

/-- `candidate_tracks` from `get_top_consensus_tracks`: tracks whose id is not
already selected. -/
def candidateTracks (all_tracks : List Track) (selected_track_ids : List String) :
    List Track :=
  all_tracks.filter (fun t => !(selected_track_ids.contains t.id))

/-- `len(track_user_counts[i])` from the source: the number of distinct
`user_id`s owning track id `i` within `candidates`. -/
def ownerCount (candidates : List Track) (i : String) : Nat :=
  (dedupFirst ((candidates.filter (fun t => t.id == i)).map (fun t => t.user_id))).length

/-- The `seen`-guarded dedup loop of `get_top_consensus_tracks`: keep the
first track for each id. -/
def dedupById (seen : List String) : List Track → List Track
  | [] => []
  | t :: ts =>
    if seen.contains t.id then dedupById seen ts
    else t :: dedupById (t.id :: seen) ts

/-- `get_top_consensus_tracks(all_tracks, selected_track_ids, limit)` from the
source.  The Python code mutates each kept track with `track['user_count']`;
here the track is paired with that count.  `unique_tracks.sort(key=user_count,
reverse=True)` is Python's stable sort, i.e. `pySort` on the count alone. -/
def get_top_consensus_tracks (all_tracks : List Track)
    (selected_track_ids : List String) (limit : Nat) : List (Track × Nat) :=
  let candidate_tracks := candidateTracks all_tracks selected_track_ids
  let consensus_tracks :=
    candidate_tracks.filter (fun t => decide (2 ≤ ownerCount candidate_tracks t.id))
  let unique_tracks :=
    (dedupById [] consensus_tracks).map (fun t => (t, ownerCount candidate_tracks t.id))
  (pySort (fun a b => decide (b.2 ≤ a.2)) unique_tracks).take limit

lemma dedupById_subset (seen : List String) :
    ∀ l : List Track, ∀ t ∈ dedupById seen l, t ∈ l := by
  intro l
  induction l generalizing seen with
  | nil => intro t h; cases h
  | cons a as ih =>
    intro t h
    simp only [dedupById] at h
    split at h
    · exact List.mem_cons_of_mem a (ih seen t h)
    · rcases List.mem_cons.mp h with rfl | h
      · exact List.mem_cons_self _ _
      · exact List.mem_cons_of_mem _ (ih (_ :: seen) t h)

lemma dedupById_ids_fresh (seen : List String) :
    ∀ l : List Track, ∀ t ∈ dedupById seen l, t.id ∉ seen := by
  intro l
  induction l generalizing seen with
  | nil => intro t h; cases h
  | cons a as ih =>
    intro t h
    simp only [dedupById] at h
    split at h
    · exact ih seen t h
    case isFalse hna =>
      rcases List.mem_cons.mp h with rfl | h
      · intro hmem; exact hna ((contains_eq_mem seen t.id).mpr hmem)
      · intro hmem
        exact ih (a.id :: seen) t h (List.mem_cons_of_mem a.id hmem)

lemma dedupById_ids_nodup (seen : List String) :
    ∀ l : List Track, ((dedupById seen l).map (fun t => t.id)).Nodup := by
  intro l
  induction l generalizing seen with
  | nil => exact List.nodup_nil
  | cons a as ih =>
    simp only [dedupById]
    split
    · exact ih seen
    · rw [List.map_cons, List.nodup_cons]
      refine ⟨fun hmem => ?_, ih (a.id :: seen)⟩
      rcases List.mem_map.mp hmem with ⟨t, ht, hid⟩
      exact dedupById_ids_fresh (a.id :: seen) as t ht (hid ▸ List.mem_cons_self a.id seen)

lemma dedupById_covers (seen : List String) :
    ∀ l : List Track, ∀ t ∈ l, t.id ∉ seen →
      ∃ t', t' ∈ dedupById seen l ∧ t'.id = t.id := by
  intro l
  induction l generalizing seen with
  | nil => intro t h; cases h
  | cons a as ih =>
    intro t ht hfresh
    simp only [dedupById]
    rcases List.mem_cons.mp ht with rfl | ht
    · split
      case isTrue hcon => exact absurd ((contains_eq_mem seen t.id).mp hcon) hfresh
      case isFalse hcon => exact ⟨t, List.mem_cons_self _ _, rfl⟩
    · split
      case isTrue hcon => exact ih seen t ht hfresh
      case isFalse hcon =>
        rcases Decidable.em (t.id = a.id) with heq | hne
        · exact ⟨a, List.mem_cons_self a _, heq.symm⟩
        · rcases ih (a.id :: seen) t ht (by
            intro hmem
            rcases List.mem_cons.mp hmem with h | h
            · exact hne h
            · exact hfresh h) with ⟨t', ht', hid⟩
          exact ⟨t', List.mem_cons_of_mem a ht', hid⟩

/-- Concrete input refuting C10: two consensus tracks with the same
distinct-owner count (2) but different popularity; the lower-popularity track
`t1` is returned first because the source sorts by owner count only (stably),
not by the pair (owner count, popularity). -/
def tracksC10 : List Track :=
  [{ id := "t1", user_id := "u1", popularity := 10 },
   { id := "t1", user_id := "u2", popularity := 10 },
   { id := "t2", user_id := "u1", popularity := 90 },
   { id := "t2", user_id := "u2", popularity := 90 }]

/-- C10 counterexample: with equal owner counts, the claimed ordering puts the
higher-popularity track `t2` first, but the code returns `t1` first — ties in
distinct-owner count are NOT broken by popularity. -/
theorem C10_counterexample :
    (get_top_consensus_tracks tracksC10 [] 10).map (fun p => (p.1.id, p.1.popularity, p.2)) =
      [("t1", (10 : Int), 2), ("t2", (90 : Int), 2)] ∧ (10 : Int) < 90 := by
  constructor
  · decide
  · decide

/-- C10 (amended): `get_top_consensus_tracks` returns, among candidate tracks
not in `selected_track_ids` whose distinct-owner count over the candidates is
≥ 2, deduplicated by id (first occurrence wins), the top `limit` tracks sorted
descending by distinct-owner count ONLY — stable, so ties keep input order and
popularity plays no role: every returned pair carries its owner count, the
output is sorted by that count, ids are unique, and any qualifying candidate
left out has owner count ≤ every returned one. -/
theorem C10_amended (all_tracks : List Track) (ex : List String) (limit : Nat) :
    (∀ p ∈ get_top_consensus_tracks all_tracks ex limit,
        p.1 ∈ all_tracks ∧ p.1.id ∉ ex ∧ 2 ≤ p.2 ∧
        p.2 = ownerCount (candidateTracks all_tracks ex) p.1.id) ∧
    (get_top_consensus_tracks all_tracks ex limit).Pairwise (fun a b => b.2 ≤ a.2) ∧
    ((get_top_consensus_tracks all_tracks ex limit).map (fun p => p.1.id)).Nodup ∧
    (∀ t ∈ candidateTracks all_tracks ex,
        2 ≤ ownerCount (candidateTracks all_tracks ex) t.id →
        t.id ∉ (get_top_consensus_tracks all_tracks ex limit).map (fun p => p.1.id) →
        ∀ p ∈ get_top_consensus_tracks all_tracks ex limit,
          ownerCount (candidateTracks all_tracks ex) t.id ≤ p.2) := by
  have hle_trans : ∀ a b c : Track × Nat, decide (b.2 ≤ a.2) = true →
      decide (c.2 ≤ b.2) = true → decide (c.2 ≤ a.2) = true := by
    intro a b c h1 h2
    rw [decide_eq_true_eq] at h1 h2 ⊢
    exact h2.trans h1
  have hle_tot : ∀ a b : Track × Nat, decide (b.2 ≤ a.2) || decide (a.2 ≤ b.2) := by
    intro a b
    rcases Nat.le_total b.2 a.2 with h | h
    · rw [decide_eq_true h]; rfl
    · rw [decide_eq_true h, Bool.or_true]
  set cand := candidateTracks all_tracks ex with hcand
  set cons := cand.filter (fun t => decide (2 ≤ ownerCount cand t.id)) with hcons
  set uniq := (dedupById [] cons).map (fun t => (t, ownerCount cand t.id)) with huniq
  set sorted := pySort (fun a b : Track × Nat => decide (b.2 ≤ a.2)) uniq with hsorted
  have hres : get_top_consensus_tracks all_tracks ex limit = sorted.take limit := rfl
  have hmem_uniq : ∀ p ∈ uniq, p.1 ∈ all_tracks ∧ p.1.id ∉ ex ∧ 2 ≤ p.2 ∧
      p.2 = ownerCount cand p.1.id := by
    intro p hp
    rcases List.mem_map.mp hp with ⟨t, ht, rfl⟩
    have htc : t ∈ cons := dedupById_subset [] cons t ht
    rw [hcons, List.mem_filter] at htc
    obtain ⟨htcand, hcount⟩ := htc
    rw [decide_eq_true_eq] at hcount
    have htall : t ∈ all_tracks ∧ t.id ∉ ex := by
      rw [hcand, candidateTracks, List.mem_filter] at htcand
      refine ⟨htcand.1, fun hmem => ?_⟩
      have := htcand.2
      rw [Bool.not_eq_eq_eq_not, Bool.not_true] at this
      rw [← contains_eq_mem ex t.id] at hmem
      rw [this] at hmem
      cases hmem
    exact ⟨htall.1, htall.2, hcount, rfl⟩
  refine ⟨?_, ?_, ?_, ?_⟩
  · intro p hp
    rw [hres] at hp
    have hp' : p ∈ sorted := List.mem_of_mem_take hp
    exact hmem_uniq p ((pySort_perm _ uniq).mem_iff.mp hp')
  · rw [hres]
    have := pySort_pairwise (fun a b : Track × Nat => decide (b.2 ≤ a.2))
      hle_trans hle_tot uniq
    have hsortedP : sorted.Pairwise (fun a b => b.2 ≤ a.2) := by
      refine this.imp ?_
      intro a b h
      rw [decide_eq_true_eq] at h
      exact h
    exact hsortedP.sublist (List.take_sublist limit sorted)
  · rw [hres]
    have hn : (uniq.map (fun p => p.1.id)).Nodup := by
      rw [huniq, List.map_map]
      exact dedupById_ids_nodup [] cons
    have hperm : (sorted.map (fun p => p.1.id)).Perm (uniq.map (fun p => p.1.id)) :=
      (pySort_perm _ uniq).map _
    exact (hperm.nodup_iff.mpr hn).sublist ((List.take_sublist limit sorted).map _)
  · intro t htcand hcount hnot p hp
    have htcons : t ∈ cons := by
      rw [hcons, List.mem_filter]
      exact ⟨htcand, decide_eq_true hcount⟩
    rcases dedupById_covers [] cons t htcons (by intro h; cases h) with ⟨t', ht', hid⟩
    have hq : (t', ownerCount cand t'.id) ∈ uniq := by
      rw [huniq]
      exact List.mem_map_of_mem _ ht'
    have hq' : (t', ownerCount cand t'.id) ∈ sorted := (pySort_perm _ uniq).mem_iff.mpr hq
    have hsplit2 : (t', ownerCount cand t'.id) ∈ sorted.take limit ++ sorted.drop limit := by
      rw [List.take_append_drop limit sorted]
      exact hq'
    rcases List.mem_append.mp hsplit2 with hin | hdrop
    · exfalso
      apply hnot
      rw [hres]
      have : t'.id ∈ (sorted.take limit).map (fun p => p.1.id) :=
        List.mem_map_of_mem _ hin
      rw [hid] at this
      exact this
    · have hP := pySort_pairwise (fun a b : Track × Nat => decide (b.2 ≤ a.2))
        hle_trans hle_tot uniq
      have := pairwise_take_drop hP limit p (by rw [hres] at hp; exact hp) _ hdrop
      rw [decide_eq_true_eq] at this
      rw [← hid]
      exact this

/-- Witness for C10 (amended) at a concrete input: the single shared track is
returned with owner count 2, and all properties hold. -/
theorem C10_amended_witness :
    ∀ p ∈ get_top_consensus_tracks
        [{ id := "s", user_id := "u1" }, { id := "s", user_id := "u2" }] [] 5,
      p.1 ∈ [({ id := "s", user_id := "u1" } : Track), { id := "s", user_id := "u2" }] ∧
      p.1.id ∉ ([] : List String) ∧ 2 ≤ p.2 ∧
      p.2 = ownerCount (candidateTracks
        [{ id := "s", user_id := "u1" }, { id := "s", user_id := "u2" }] []) p.1.id :=
  (C10_amended [{ id := "s", user_id := "u1" }, { id := "s", user_id := "u2" }] [] 5).1

/-- `user_genres[u][g]` from `get_genre_recommendations`: every occurrence of
`g` in the genre list of a track owned by `u` increments the count. -/
def userGenreCount (tracks : List Track) (u g : String) : Nat :=
  ((tracks.filter (fun t => t.user_id == u)).map (fun t => t.genres.count g)).sum

/-- `user_total_tracks[u]` from `get_genre_recommendations`. -/
def userTotalTracks (tracks : List Track) (u : String) : Nat :=
  (tracks.filter (fun t => t.user_id == u)).length

/-- `user_genre_proportions[u][g]`: the per-holder proportion
`count / total`; defined only for users with tracks in the source, and
rational division by zero yields the same 0 the source's guard gives. -/
def userGenreProportion (tracks : List Track) (u g : String) : Rat :=
  (userGenreCount tracks u g : Rat) / (userTotalTracks tracks u : Rat)

/-- `users_with_genre` from the `num_users >= 3` branch:
the guests holding genre `g`. -/
def consensusHolders (tracks : List Track) (guests : List String) (g : String) :
    List String :=
  guests.filter (fun u => decide (0 < userGenreCount tracks u g))

/-- `avg_proportion` from the `num_users >= 3` branch (0 when no holders,
as in the source's `if proportions else 0`). -/
def avgHolderProportion (tracks : List Track) (guests : List String) (g : String) : Rat :=
  ((consensusHolders tracks guests g).map (fun u => userGenreProportion tracks u g)).sum /
    ((consensusHolders tracks guests g).length : Rat)

/-- `consensus_score = 0.9 * normalized_user_count + 0.1 * avg_proportion`
from the source (floats modelled as exact rationals). -/
def consensusScore (tracks : List Track) (guests : List String) (g : String) : Rat :=
  (9 / 10 : Rat) * (((consensusHolders tracks guests g).length : Rat) / (guests.length : Rat)) +
    (1 / 10 : Rat) * avgHolderProportion tracks guests g

/-- One tuple `(genre, num_users_with_genre, avg_proportion, consensus_score)`
appended to `consensus_scores` in the `num_users >= 3` branch. -/
def consensusEntryGE3 (tracks : List Track) (guests : List String) (g : String) :
    String × Nat × Rat × Rat :=
  (g, (consensusHolders tracks guests g).length,
    avgHolderProportion tracks guests g, consensusScore tracks guests g)

/-- All genres seen across every user's genre histogram (`all_genres` in the
source — a Python set; its arbitrary iteration order is fixed here as first
occurrence in the track list, which only matters for undocumented ties). -/
def allGenresList (tracks : List Track) : List String :=
  dedupFirst (tracks.flatMap (fun t => t.genres))

/-- The consensus computation of `get_genre_recommendations` for
`num_users >= 3` (source lines 370–391): keep genres held by at least
`ceil(num_users / 2) = (n + 1) / 2` guests, score each, sort stably by score
descending, take the top 5. -/
def consensusGE3 (tracks : List Track) (guests : List String) :
    List (String × Nat × Rat × Rat) :=
  let min_users_required := (guests.length + 1) / 2
  let consensus_scores := (allGenresList tracks).filterMap (fun g =>
    if min_users_required ≤ (consensusHolders tracks guests g).length
    then some (consensusEntryGE3 tracks guests g) else none)
  (pySort (fun a b : String × Nat × Rat × Rat => decide (b.2.2.2 ≤ a.2.2.2))
    consensus_scores).take 5

lemma filterMap_if_eq_map_filter {α β : Type _} (p : α → Prop) [DecidablePred p]
    (f : α → β) (l : List α) :
    l.filterMap (fun x => if p x then some (f x) else none) =
      (l.filter (fun x => decide (p x))).map f := by
  induction l with
  | nil => rfl
  | cons a as ih =>
    rw [List.filterMap_cons, List.filter_cons]
    by_cases hp : p a
    · rw [if_pos hp, decide_eq_true hp, if_pos rfl, List.map_cons, ih]
    · rw [if_neg hp, decide_eq_false hp]
      simp only [Bool.false_eq_true, if_false]
      exact ih

/-- C9: for `n >= 3` guests, every consensus entry's genre is held by at least
`ceil(n/2)` distinct guests and carries exactly the source's
`(genre, holders, avg_proportion, 0.9*(holders/n) + 0.1*avg_proportion)`
tuple; the list is sorted descending by that score; its length is
`min 5 (number of eligible genres)`; and every eligible genre left out scores
no higher than any entry kept — i.e. the consensus list is the top 5 eligible
genres ranked by the score. -/
theorem C9_consensus_ge3 (tracks : List Track) (guests : List String)
    (h3 : 3 ≤ guests.length) (hnd : guests.Nodup) :
    (∀ e ∈ consensusGE3 tracks guests,
        (guests.length + 1) / 2 ≤ (consensusHolders tracks guests e.1).length ∧
        e = consensusEntryGE3 tracks guests e.1) ∧
    (consensusGE3 tracks guests).Pairwise (fun a b => b.2.2.2 ≤ a.2.2.2) ∧
    (consensusGE3 tracks guests).length =
      min 5 ((allGenresList tracks).filter (fun g =>
        decide ((guests.length + 1) / 2 ≤ (consensusHolders tracks guests g).length))).length ∧
    (∀ g ∈ allGenresList tracks,
        (guests.length + 1) / 2 ≤ (consensusHolders tracks guests g).length →
        g ∉ (consensusGE3 tracks guests).map (fun e => e.1) →
        ∀ e ∈ consensusGE3 tracks guests,
          consensusScore tracks guests g ≤ e.2.2.2) := by
  have hle_trans : ∀ a b c : String × Nat × Rat × Rat, decide (b.2.2.2 ≤ a.2.2.2) = true →
      decide (c.2.2.2 ≤ b.2.2.2) = true → decide (c.2.2.2 ≤ a.2.2.2) = true := by
    intro a b c h1 h2
    rw [decide_eq_true_eq] at h1 h2 ⊢
    exact h2.trans h1
  have hle_tot : ∀ a b : String × Nat × Rat × Rat,
      decide (b.2.2.2 ≤ a.2.2.2) || decide (a.2.2.2 ≤ b.2.2.2) := by
    intro a b
    rcases le_total b.2.2.2 a.2.2.2 with h | h
    · rw [decide_eq_true h]; rfl
    · rw [decide_eq_true h, Bool.or_true]
  set minr := (guests.length + 1) / 2 with hminr
  set scores := (allGenresList tracks).filterMap (fun g =>
    if minr ≤ (consensusHolders tracks guests g).length
    then some (consensusEntryGE3 tracks guests g) else none) with hscores
  set sorted := pySort (fun a b : String × Nat × Rat × Rat => decide (b.2.2.2 ≤ a.2.2.2))
    scores with hsortdef
  have hres : consensusGE3 tracks guests = sorted.take 5 := rfl
  have hscores_eq : scores = ((allGenresList tracks).filter (fun g =>
      decide (minr ≤ (consensusHolders tracks guests g).length))).map
      (consensusEntryGE3 tracks guests) := by
    rw [hscores]
    exact filterMap_if_eq_map_filter _ _ _
  have hmem_scores : ∀ e ∈ scores,
      minr ≤ (consensusHolders tracks guests e.1).length ∧
      e = consensusEntryGE3 tracks guests e.1 := by
    intro e he
    rw [hscores_eq] at he
    rcases List.mem_map.mp he with ⟨g, hg, rfl⟩
    have := (List.mem_filter.mp hg).2
    rw [decide_eq_true_eq] at this
    exact ⟨this, rfl⟩
  refine ⟨?_, ?_, ?_, ?_⟩
  · intro e he
    rw [hres] at he
    exact hmem_scores e ((pySort_perm _ scores).mem_iff.mp (List.mem_of_mem_take he))
  · rw [hres]
    have hP := pySort_pairwise
      (fun a b : String × Nat × Rat × Rat => decide (b.2.2.2 ≤ a.2.2.2))
      hle_trans hle_tot scores
    have : sorted.Pairwise (fun a b => b.2.2.2 ≤ a.2.2.2) := by
      refine hP.imp ?_
      intro a b h
      rw [decide_eq_true_eq] at h
      exact h
    exact this.sublist (List.take_sublist 5 sorted)
  · rw [hres, List.length_take, (pySort_perm _ scores).length_eq, hscores_eq,
      List.length_map]
  · intro g hg hcnt hnot e he
    have hgsc : consensusEntryGE3 tracks guests g ∈ scores := by
      rw [hscores_eq]
      refine List.mem_map_of_mem _ (List.mem_filter.mpr ⟨hg, decide_eq_true hcnt⟩)
    have hgsorted : consensusEntryGE3 tracks guests g ∈ sorted :=
      (pySort_perm _ scores).mem_iff.mpr hgsc
    have hsplit2 : consensusEntryGE3 tracks guests g ∈ sorted.take 5 ++ sorted.drop 5 := by
      rw [List.take_append_drop 5 sorted]
      exact hgsorted
    rcases List.mem_append.mp hsplit2 with hin | hdrop
    · exfalso
      apply hnot
      rw [hres]
      exact List.mem_map_of_mem (fun e => e.1) hin
    · have hP := pySort_pairwise
        (fun a b : String × Nat × Rat × Rat => decide (b.2.2.2 ≤ a.2.2.2))
        hle_trans hle_tot scores
      have := pairwise_take_drop hP 5 e (by rw [hres] at he; exact he) _ hdrop
      rw [decide_eq_true_eq] at this
      exact this

/-- Witness for C9 at a concrete input: 3 guests, "rock" held by all three
(eligible, `ceil(3/2) = 2 ≤ 3`), checking the eligibility-and-entry part. -/
theorem C9_consensus_ge3_witness :
    3 ≤ (["a", "b", "c"] : List String).length ∧
    (∀ e ∈ consensusGE3
        [{ id := "t1", user_id := "a", genres := ["rock"] },
         { id := "t2", user_id := "b", genres := ["rock"] },
         { id := "t3", user_id := "c", genres := ["rock"] }] ["a", "b", "c"],
      ((["a", "b", "c"] : List String).length + 1) / 2 ≤
        (consensusHolders
          [{ id := "t1", user_id := "a", genres := ["rock"] },
           { id := "t2", user_id := "b", genres := ["rock"] },
           { id := "t3", user_id := "c", genres := ["rock"] }] ["a", "b", "c"] e.1).length ∧
      e = consensusEntryGE3
          [{ id := "t1", user_id := "a", genres := ["rock"] },
           { id := "t2", user_id := "b", genres := ["rock"] },
           { id := "t3", user_id := "c", genres := ["rock"] }] ["a", "b", "c"] e.1) :=
  ⟨by decide,
    (C9_consensus_ge3
      [{ id := "t1", user_id := "a", genres := ["rock"] },
       { id := "t2", user_id := "b", genres := ["rock"] },
       { id := "t3", user_id := "c", genres := ["rock"] }] ["a", "b", "c"]
      (by decide) (by decide)).1⟩

/-- Allocation mode: the `"Equal"` / `"Focus"` strings of the source. -/
inductive Mode where
  | Equal : Mode
  | Focus : Mode
deriving DecidableEq, Repr

/-- The `random.shuffle` sites of `allocate_tracks`, made explicit:
`shu u` shuffles guest `u`'s own track list (single-genre path),
`shp` shuffles a phase-2 global pool, `shf` shuffles the final selection. -/
structure Shuffles where
  shu : String → List Track → List Track
  shp : List Track → List Track
  shf : List Track → List Track

/-- Every shuffle site really permutes its list. -/
def permShuffles (σ : Shuffles) : Prop :=
  (∀ u l, (σ.shu u l).Perm l) ∧ (∀ l, (σ.shp l).Perm l) ∧ (∀ l, (σ.shf l).Perm l)

/-- The trivial (identity) draw of every shuffle. -/
def idShuffles : Shuffles :=
  { shu := fun _ l => l, shp := fun l => l, shf := fun l => l }

lemma idShuffles_perm : permShuffles idShuffles :=
  ⟨fun _ l => List.Perm.refl l, fun l => List.Perm.refl l, fun l => List.Perm.refl l⟩

/-- The `allocation_info` dict: `user_contribution` and `warnings`. -/
structure AllocInfo where
  user_contribution : String → Nat
  warnings : List String

/-- `f[u] += k` on a counter dict represented as a function. -/
def bump (f : String → Nat) (u : String) (k : Nat) : String → Nat :=
  fun v => if v = u then f u + k else f v

/-- `genre_list` from the head of `allocate_tracks`: the selected genres, or
all genres auto-detected from the tracks, sorted (`sorted(all_g)`). -/
def genreListOf (tracks : List Track) (selected_genres : List String) : List String :=
  if selected_genres.isEmpty then
    pySort strLe (dedupFirst (tracks.flatMap (fun t => t.genres)))
  else selected_genres

/-- Keys of the `user_tracks` / `user_genre_tracks` dicts: users in order of
first appearance in the track list (Python dict insertion order). -/
def usersInOrder (tracks : List Track) : List String :=
  dedupFirst (tracks.map (fun t => t.user_id))

/-- `users = sorted(list(users_set))` from the multi-genre path. -/
def sortedUsers (tracks : List Track) : List String :=
  pySort strLe (usersInOrder tracks)

/-- Equal-mode targets (both paths of the source): `base = num_tracks //
len(users)`, and the first `num_tracks % len(users)` users in list order get
one extra. -/
def equalTargets (num_tracks : Nat) (users : List String) : String → Nat :=
  if users.isEmpty then fun _ => 0
  else fun u =>
    num_tracks / users.length +
      (if u ∈ users.take (num_tracks % users.length) then 1 else 0)

/-- `fractional.sort(reverse=True)` comparator: Python sorts the
`(fraction, username)` tuples lexicographically and reverses, so descending
fraction with ties broken by descending username. -/
def descFracLe (a b : Rat × String) : Bool :=
  decide (b.1 < a.1) || (decide (a.1 = b.1) && strLe b.2 a.2)

/-- The largest-remainder target assignment of both Focus branches: floor of
each exact share, then `+1` to the first `num_tracks - assigned` entries of
the descending-sorted fractional list.  (In the source `leftover` is a
nonnegative int because `total_w` is the sum of the weights over `users`,
which both call sites ensure.) -/
def focusTargets (num_tracks : Nat) (wf : String → Rat) (total_w : Rat)
    (users : List String) : String → Nat :=
  let exact := fun u => rmul (num_tracks : Rat) (rdiv (wf u) total_w)
  let base := fun u => (pyInt (exact u)).toNat
  let assigned := (users.map base).sum
  let fractional := users.map (fun u => (rsub (exact u) (base u : Rat), u))
  let plus := ((pySort descFracLe fractional).take (num_tracks - assigned)).map
    (fun p => p.2)
  fun u => base u + (if u ∈ plus then 1 else 0)

/-- The user-target block of the multi-genre path (source lines 622–651):
Focus with truthy weights clamps them at 0 and falls back to Equal when they
sum to nothing; Focus with falsy weights leaves every target at its initial 0
(neither branch of the source fires). -/
def userTargetsMulti (mode : Mode) (w : List (String × Rat)) (num_tracks : Nat)
    (users : List String) : String → Nat :=
  match mode with
  | Mode.Equal => equalTargets num_tracks users
  | Mode.Focus =>
    if w.isEmpty then fun _ => 0
    else
      let weights := fun u => max 0 (wlookup w u)
      let total_w := rsum (users.map weights)
      if total_w ≤ 0 then equalTargets num_tracks users
      else focusTargets num_tracks weights total_w users

/-- Result of one guarded take from a bucket. -/
structure TGRes where
  picked : List Track
  used : List String
  cnt : Nat
  rest : List Track

/-- Pull up to `need` tracks from the front of `bucket`, skipping (and
consuming) tracks whose id is already used.  With the bucket reversed this is
the source's `while need > 0 and bucket: t = bucket.pop()` loop; unreversed it
is the indexed `while` loop of the single-genre phase 1. -/
def takeGuard (used : List String) (need : Nat) : List Track → TGRes
  | [] => ⟨[], used, 0, []⟩
  | t :: rest =>
    match need with
    | 0 => ⟨[], used, 0, t :: rest⟩
    | Nat.succ m =>
      if used.contains t.id then takeGuard used (Nat.succ m) rest
      else
        let r := takeGuard (t.id :: used) m rest
        ⟨t :: r.picked, r.used, r.cnt + 1, r.rest⟩

/-- Shared state of a phase-2 global fill. -/
structure FillRes where
  sel : List Track
  used : List String
  contrib : String → Nat
  gcontrib : String → Nat

/-- `for g in genre_list: if g in track_genres: genre_contrib[g] += 1; break`
— count a track once under its first matching genre. -/
def bumpFirstGenre (genre_list : List String) (t : Track) (gc : String → Nat) :
    String → Nat :=
  match genre_list.find? (fun g => t.genres.contains g) with
  | some g => bump gc g 1
  | none => gc

/-- The `while len(selected) < num_tracks and pool:` global-fill loop.
`pool.pop()` takes from the end, so the caller passes the reversed pool;
`gupd` is the per-pick genre bookkeeping of the multi-genre fill (the
single-genre fill passes the identity). -/
def fillPool (num_tracks : Nat) (gupd : Track → (String → Nat) → (String → Nat)) :
    List Track → FillRes → FillRes
  | [], st => st
  | t :: rest, st =>
    if st.sel.length < num_tracks then
      if st.used.contains t.id then fillPool num_tracks gupd rest st
      else
        fillPool num_tracks gupd rest
          ⟨st.sel ++ [t], t.id :: st.used, bump st.contrib t.user_id 1,
            gupd t st.gcontrib⟩
    else st

/-- `random.shuffle(selected_tracks)` then the defensive truncation
`if len(selected_tracks) > num_tracks: selected_tracks[:num_tracks]`. -/
def finalize (num_tracks : Nat) (σ : Shuffles) (sel : List Track) : List Track :=
  let fin := σ.shf sel
  if num_tracks < fin.length then fin.take num_tracks else fin

/-- Post-hoc `genre_contribution` of the single-genre path: each selected
track counted once under its first matching genre. -/
def genreContribOf (genres_for_count : List String) (sel : List Track) :
    String → Nat :=
  sel.foldl (fun gc t => bumpFirstGenre genres_for_count t gc) (fun _ => 0)

/-- The single-genre phase-1 shortfall notice (Equal branch wording). -/
def warnEqual (u : String) (c t : Nat) : String :=
  s!"**{u}** could only contribute {c} of {t} expected tracks."

/-- The single-genre phase-1 shortfall notice (Focus branch wording). -/
def warnFocus (u : String) (c t : Nat) : String :=
  s!"**{u}** could only contribute {c} of {t} expected."

/-- Per-guest shuffled buckets `user_tracks[u]` of the single-genre path. -/
def initialBuckets (tracks : List Track) (σ : Shuffles) : String → List Track :=
  fun u => σ.shu u (tracks.filter (fun t => t.user_id == u))

/-- State threaded through the single-genre path: selection, used ids,
contributions, warnings, and each user's not-yet-consumed bucket suffix
(`user_tracks[u][user_idx[u]:]`). -/
structure SingleSt where
  sel : List Track
  used : List String
  contrib : String → Nat
  warnings : List String
  rest : String → List Track

/-- Phase 1 of the single-genre path: for each user in order, pull tracks
from their bucket until their target is met or the bucket is exhausted,
recording a shortfall notice in the latter case. -/
def singlePhase1 (targets : String → Nat) (warnFmt : String → Nat → Nat → String) :
    List String → SingleSt → SingleSt
  | [], st => st
  | u :: us, st =>
    let r := takeGuard st.used (targets u) (st.rest u)
    let contrib' := bump st.contrib u r.cnt
    singlePhase1 targets warnFmt us
      { sel := st.sel ++ r.picked
        used := r.used
        contrib := contrib'
        warnings :=
          if r.cnt < targets u then st.warnings ++ [warnFmt u (contrib' u) (targets u)]
          else st.warnings
        rest := fun v => if v = u then r.rest else st.rest v }

/-- The phase-2 pool of the single-genre path: every unconsumed, unused track
of the pooled users, in user order. -/
def singlePool (poolUsers : List String) (rest : String → List Track)
    (used : List String) : List Track :=
  poolUsers.flatMap (fun u => (rest u).filter (fun t => !(used.contains t.id)))

/-- Run phase 2 of the single-genre path on top of a phase-1 state. -/
def singleFill (num_tracks : Nat) (poolUsers : List String) (σ : Shuffles)
    (st : SingleSt) : SingleSt :=
  if st.sel.length < num_tracks then
    let pool := singlePool poolUsers st.rest st.used
    let r := fillPool num_tracks (fun _ gc => gc) ((σ.shp pool).reverse)
      ⟨st.sel, st.used, st.contrib, fun _ => 0⟩
    { st with sel := r.sel, used := r.used, contrib := r.contrib }
  else st

/-- The Equal branch of the single-genre path (source lines 789–838). -/
def singleEqualCore (tracks : List Track) (num_tracks : Nat) (σ : Shuffles) :
    SingleSt :=
  let users_eq := usersInOrder tracks
  let st0 : SingleSt :=
    ⟨[], [], fun _ => 0, [], initialBuckets tracks σ⟩
  if users_eq.isEmpty then st0
  else
    singleFill num_tracks users_eq σ
      (singlePhase1 (equalTargets num_tracks users_eq) warnEqual users_eq st0)

/-- `active` from the Focus branch of the single-genre path. -/
def activeUsers (tracks : List Track) (w : List (String × Rat)) : List String :=
  (usersInOrder tracks).filter (fun u => decide (0 < wlookup w u))

/-- The default equal weights substituted when `user_weights` is falsy
(`{u: 1.0/len(user_tracks) for u in user_tracks}`). -/
def defaultWeights (tracks : List Track) : List (String × Rat) :=
  (usersInOrder tracks).map
    (fun u => (u, rdiv 1 ((usersInOrder tracks).length : Rat)))

/-- The Focus branch of the single-genre path (source lines 840–904), on the
assumption — checked by the caller — that the active weights sum positively. -/
def singleFocusCore (tracks : List Track) (num_tracks : Nat)
    (w : List (String × Rat)) (σ : Shuffles) : SingleSt :=
  let active := activeUsers tracks w
  let total_w := rsum (active.map (wlookup w))
  let st0 : SingleSt :=
    ⟨[], [], fun _ => 0, [], initialBuckets tracks σ⟩
  singleFill num_tracks active σ
    (singlePhase1 (focusTargets num_tracks (wlookup w) total_w active) warnFocus
      active st0)

/-- The shared tail of the single-genre path: final shuffle, defensive
truncation, allocation info, and post-hoc genre contributions. -/
def singleTail (num_tracks : Nat) (selected_genres genre_list : List String)
    (σ : Shuffles) (st : SingleSt) :
    List Track × AllocInfo × (String → Nat) :=
  let sel := finalize num_tracks σ st.sel
  let genres_for_count := if selected_genres.isEmpty then genre_list else selected_genres
  (sel, ⟨st.contrib, st.warnings⟩, genreContribOf genres_for_count sel)

/-- The whole single-genre Equal run (also the target of the all-zero-weight
Focus fallback: the source's recursive `allocate_tracks(tracks, "Equal",
num_tracks, None, selected_genres)` call lands exactly here on this path). -/
def singleEqualRun (tracks : List Track) (num_tracks : Nat)
    (selected_genres genre_list : List String) (σ : Shuffles) :
    List Track × AllocInfo × (String → Nat) :=
  singleTail num_tracks selected_genres genre_list σ
    (singleEqualCore tracks num_tracks σ)

/-- The single-genre path of `allocate_tracks` (0 or 1 genre in play). -/
def singlePath (tracks : List Track) (mode : Mode) (num_tracks : Nat)
    (w : List (String × Rat)) (selected_genres genre_list : List String)
    (σ : Shuffles) : List Track × AllocInfo × (String → Nat) :=
  match mode with
  | Mode.Equal => singleEqualRun tracks num_tracks selected_genres genre_list σ
  | Mode.Focus =>
    let w' := if w.isEmpty then defaultWeights tracks else w
    if rsum ((activeUsers tracks w').map (wlookup w')) ≤ 0 then
      singleEqualRun tracks num_tracks selected_genres genre_list σ
    else
      singleTail num_tracks selected_genres genre_list σ
        (singleFocusCore tracks num_tracks w' σ)

/-- `present = [g for g in genre_list if g in genres]`. -/
def presentGenres (genre_list : List String) (t : Track) : List String :=
  genre_list.filter (fun g => t.genres.contains g)

/-- `user_genre_tracks[u][g]` of the multi-genre path, stored reversed so that
the source's `bucket.pop()` is the head.  A track lands in the bucket of its
first matching selected genre. -/
def initGB (tracks : List Track) (genre_list : List String) :
    String → String → List Track :=
  fun u g => (tracks.filter (fun t =>
    t.user_id == u && ((presentGenres genre_list t).head? == some g))).reverse

/-- `user_other_tracks[u]` of the multi-genre path (no selected genre),
stored reversed. -/
def initOB (tracks : List Track) (genre_list : List String) : String → List Track :=
  fun u => (tracks.filter (fun t =>
    t.user_id == u && (presentGenres genre_list t).isEmpty)).reverse

/-- State threaded through the multi-genre path. -/
structure MultiSt where
  sel : List Track
  used : List String
  contrib : String → Nat
  gcontrib : String → Nat
  gb : String → String → List Track
  ob : String → List Track

/-- The first per-genre loop of a user's multi-genre allocation: try to meet
each genre quota `desired g` from the user's own bucket for `g`. -/
def multiLoop1 (u : String) (desired : String → Nat) :
    List String → MultiSt → MultiSt
  | [], st => st
  | g :: gs, st =>
    let r := takeGuard st.used (desired g) (st.gb u g)
    multiLoop1 u desired gs
      { sel := st.sel ++ r.picked
        used := r.used
        contrib := bump st.contrib u r.cnt
        gcontrib := bump st.gcontrib g r.cnt
        gb := fun v h => if v = u ∧ h = g then r.rest else st.gb v h
        ob := st.ob }

/-- The second per-genre loop: fill the user's remaining quota from any of
their genre buckets (`if remaining <= 0: break`). -/
def multiLoop2 (u : String) :
    List String → MultiSt × Nat → MultiSt × Nat
  | [], sr => sr
  | g :: gs, (st, remaining) =>
    if remaining = 0 then (st, remaining)
    else
      let r := takeGuard st.used remaining (st.gb u g)
      multiLoop2 u gs
        ({ sel := st.sel ++ r.picked
           used := r.used
           contrib := bump st.contrib u r.cnt
           gcontrib := bump st.gcontrib g r.cnt
           gb := fun v h => if v = u ∧ h = g then r.rest else st.gb v h
           ob := st.ob }, remaining - r.cnt)

/-- One user's multi-genre phase-1 allocation (source lines 663–723):
per-genre quotas from an even split of the effective target, then any-genre
fill, then non-genre fill. -/
def multiUserStep (genre_list : List String) (targets : String → Nat)
    (st : MultiSt) (u : String) : MultiSt :=
  let target := targets u
  if target = 0 then st
  else
    let available :=
      (genre_list.map (fun g => (st.gb u g).length)).sum + (st.ob u).length
    let effective_target := min target available
    if effective_target = 0 then st
    else
      let G := genre_list.length
      let base_pg := effective_target / G
      let rem_pg := effective_target % G
      let desired := fun g =>
        base_pg + (if g ∈ genre_list.take rem_pg then 1 else 0)
      let st1 := multiLoop1 u desired genre_list st
      let remaining := effective_target - st1.contrib u
      let p2 := multiLoop2 u genre_list (st1, remaining)
      let r3 := takeGuard p2.1.used p2.2 (p2.1.ob u)
      { sel := p2.1.sel ++ r3.picked
        used := r3.used
        contrib := bump p2.1.contrib u r3.cnt
        gcontrib := p2.1.gcontrib
        gb := p2.1.gb
        ob := fun v => if v = u then r3.rest else p2.1.ob v }

/-- The multi-genre warning block (source lines 753–762): guests contributing
at least one track whose contribution deviates from the mean by ≥ 2 are
flagged.  (The `.1f`-formatted ideal in the message text is elided.) -/
def warnMulti (u : String) (c : Nat) : String :=
  s!"**{u}** contributed {c} tracks"

def multiWarnings (users : List String) (contrib : String → Nat)
    (total_sel : Nat) : List String :=
  let effective := users.filter (fun u => decide (0 < contrib u))
  if effective.isEmpty then []
  else
    let ideal : Rat := rdiv (total_sel : Rat) (effective.length : Rat)
    effective.filterMap (fun u =>
      if 2 ≤ rabs (rsub (contrib u : Rat) ideal) then some (warnMulti u (contrib u))
      else none)

/-- The initial multi-genre state: empty selection and the per-user genre
buckets. -/
def multiSt0 (tracks : List Track) (genre_list : List String) : MultiSt :=
  ⟨[], [], fun _ => 0, fun _ => 0, initGB tracks genre_list,
    initOB tracks genre_list⟩

/-- The phase-2 global pool of the multi-genre path: every remaining unused
bucket track of every user, in user/genre order (buckets are stored reversed,
hence the `reverse`s restore the source's front-to-back iteration). -/
def multiPool (genre_list : List String) (users : List String) (st1 : MultiSt) :
    List Track :=
  users.flatMap (fun u =>
    (genre_list.flatMap (fun g =>
      (st1.gb u g).reverse.filter (fun t => !(st1.used.contains t.id)))) ++
    (st1.ob u).reverse.filter (fun t => !(st1.used.contains t.id)))

/-- Phase 2 of the multi-genre path: global fill if the target is unmet. -/
def multiPhase2 (num_tracks : Nat) (genre_list : List String) (σ : Shuffles)
    (users : List String) (st1 : MultiSt) : FillRes :=
  if st1.sel.length < num_tracks then
    fillPool num_tracks (bumpFirstGenre genre_list)
      ((σ.shp (multiPool genre_list users st1)).reverse)
      ⟨st1.sel, st1.used, st1.contrib, st1.gcontrib⟩
  else ⟨st1.sel, st1.used, st1.contrib, st1.gcontrib⟩

/-- The multi-genre engine after targets are fixed: per-user phase 1 over the
sorted users, then the global phase-2 fill, warnings, final shuffle and
truncation. -/
def multiEngine (tracks : List Track) (num_tracks : Nat)
    (genre_list : List String) (σ : Shuffles) (targets : String → Nat) :
    List Track × AllocInfo × (String → Nat) :=
  let users := sortedUsers tracks
  let st1 := users.foldl (multiUserStep genre_list targets) (multiSt0 tracks genre_list)
  let st2 := multiPhase2 num_tracks genre_list σ users st1
  let warnings := multiWarnings users st2.contrib st2.sel.length
  (finalize num_tracks σ st2.sel, ⟨st2.contrib, warnings⟩, st2.gcontrib)

/-- The multi-genre path of `allocate_tracks`. -/
def multiPath (tracks : List Track) (mode : Mode) (num_tracks : Nat)
    (w : List (String × Rat)) (genre_list : List String) (σ : Shuffles) :
    List Track × AllocInfo × (String → Nat) :=
  multiEngine tracks num_tracks genre_list σ
    (userTargetsMulti mode w num_tracks (sortedUsers tracks))

/-- `allocate_tracks(tracks, allocation_mode, num_tracks, user_weights,
selected_genres)` from the source, with the shuffle draws explicit.  An
absent/falsy `user_weights` or `selected_genres` is the empty list. -/
def allocate_tracks (tracks : List Track) (mode : Mode) (num_tracks : Nat)
    (user_weights : List (String × Rat)) (selected_genres : List String)
    (σ : Shuffles) : List Track × AllocInfo × (String → Nat) :=
  if tracks.isEmpty then ([], ⟨fun _ => 0, []⟩, fun _ => 0)
  else
    let genre_list := genreListOf tracks selected_genres
    if 1 < genre_list.length then
      multiPath tracks mode num_tracks user_weights genre_list σ
    else
      singlePath tracks mode num_tracks user_weights selected_genres genre_list σ

/-- Tracks that can ever enter the selection: on the single-genre Focus path
(with a positive active-weight sum) only positive-weight guests' tracks feed
either phase; every other path draws on all tracks. -/
def eligibleTracks (tracks : List Track) (mode : Mode)
    (w : List (String × Rat)) (selected_genres : List String) : List Track :=
  let genre_list := genreListOf tracks selected_genres
  if 1 < genre_list.length then tracks
  else
    match mode with
    | Mode.Equal => tracks
    | Mode.Focus =>
      let w' := if w.isEmpty then defaultWeights tracks else w
      if rsum ((activeUsers tracks w').map (wlookup w')) ≤ 0 then tracks
      else tracks.filter (fun t => decide (0 < wlookup w' t.user_id))

/-- The number of distinct track ids in a track population. -/
def distinctIds (tracks : List Track) : Nat :=
  (dedupFirst (tracks.map (fun t => t.id))).length

/-- Two guests, one track each, no genres; guest "b" has weight 0. -/
def tracksC1 : List Track :=
  [{ id := "a1", user_id := "a" }, { id := "b1", user_id := "b" }]

/-- C1 counterexample: in single-genre Focus mode a zero-weight guest's tracks
never enter either phase, so with `target_size = 2 > 0` and two available
distinct track ids across all guests the selection still has length 1 — the
claimed equality fails when the distinct ids are counted across ALL guests. -/
theorem C1_counterexample :
    0 < 2 ∧ distinctIds tracksC1 = 2 ∧
    (allocate_tracks tracksC1 Mode.Focus 2 [("a", (1 : Rat)), ("b", 0)] []
      idShuffles).1.length = 1 := by
  refine ⟨by decide, by decide, by decide⟩

/-- Guest "a" (weight 1) and guest "b" (weight 0), one track each tagged with
the first of two selected genres — the multi-genre path. -/
def tracksC3 : List Track :=
  [{ id := "ag", user_id := "a", genres := ["g1"] },
   { id := "bg", user_id := "b", genres := ["g1"] }]

/-- C3 counterexample: on the multi-genre path the phase-2 global pool is
built over ALL users, so the zero-weight guest "b" contributes a filler track:
`user_contribution "b" = 1` and b's track is in the selection. -/
theorem C3_counterexample :
    wlookup [("a", (1 : Rat)), ("b", 0)] "b" = 0 ∧
    (allocate_tracks tracksC3 Mode.Focus 2 [("a", (1 : Rat)), ("b", 0)]
      ["g1", "g2"] idShuffles).2.1.user_contribution "b" = 1 ∧
    ((allocate_tracks tracksC3 Mode.Focus 2 [("a", (1 : Rat)), ("b", 0)]
      ["g1", "g2"] idShuffles).1.map (fun t => t.user_id)).contains "b" = true := by
  refine ⟨by decide, by decide, by decide⟩

/-- C4 counterexample: called on an empty track population the source returns
the ordinary empty result — `[], {"user_contribution": {}, "warnings": []},
{}` — on its very first line; no "invalid configuration" (or any other) error
exists, and `target_size <= 0` is not checked at all. -/
theorem C4_counterexample :
    allocate_tracks [] Mode.Equal 5 [] [] idShuffles =
      ([], ⟨fun _ => 0, []⟩, fun _ => 0) := rfl

/-- Tracks entered for guest "b" before guest "a" (the entered guest order),
each tagged with the first of two selected genres. -/
def tracksC5 : List Track :=
  [{ id := "bt", user_id := "b", genres := ["g1"] },
   { id := "at", user_id := "a", genres := ["g1"] }]

/-- C5 counterexample: with guests entered in order b, a and `target_size = 3`
the claimed rule gives the remainder track to "b" (first in entered order),
but the multi-genre path sorts the users alphabetically and gives it to "a":
targets are a ↦ 2, b ↦ 1. -/
theorem C5_counterexample :
    usersInOrder tracksC5 = ["b", "a"] ∧
    userTargetsMulti Mode.Equal [] 3 (sortedUsers tracksC5) "a" = 2 ∧
    userTargetsMulti Mode.Equal [] 3 (sortedUsers tracksC5) "b" = 1 := by
  refine ⟨by decide, by decide, by decide⟩

/-- C6 counterexample: two guests with equal weights and `target_size = 1`:
both fractional remainders are 1/2, guest list order is a, b — the claimed
tie-break gives "a" the extra track, but `fractional.sort(reverse=True)`
sorts the (fraction, username) tuples descending, so "b" (the larger
username) gets it: targets are a ↦ 0, b ↦ 1. -/
theorem C6_counterexample :
    userTargetsMulti Mode.Focus [("a", (1 : Rat)), ("b", 1)] 1 ["a", "b"] "a" = 0 ∧
    userTargetsMulti Mode.Focus [("a", (1 : Rat)), ("b", 1)] 1 ["a", "b"] "b" = 1 ∧
    rmul ((1 : Nat) : Rat) (rdiv (wlookup [("a", (1 : Rat)), ("b", 1)] "a") (radd 1 1)) =
      rmul ((1 : Nat) : Rat) (rdiv (wlookup [("a", (1 : Rat)), ("b", 1)] "b") (radd 1 1)) := by
  refine ⟨by decide, by decide, by decide⟩

lemma den_int_ne (a : Rat) : ((a.den : Int)) ≠ 0 := by
  exact_mod_cast a.den_nz

lemma radd_eq (a b : Rat) : radd a b = a + b := by
  rw [radd, Rat.mkRat_eq_divInt]
  conv_rhs => rw [← Rat.num_divInt_den a, ← Rat.num_divInt_den b,
    Rat.divInt_add_divInt _ _ (den_int_ne a) (den_int_ne b)]
  push_cast
  ring_nf

lemma rsub_eq (a b : Rat) : rsub a b = a - b := by
  rw [rsub, Rat.mkRat_eq_divInt]
  conv_rhs => rw [← Rat.num_divInt_den a, ← Rat.num_divInt_den b,
    Rat.divInt_sub_divInt _ _ (den_int_ne a) (den_int_ne b)]
  push_cast
  ring_nf

lemma rmul_eq (a b : Rat) : rmul a b = a * b := by
  rw [rmul, Rat.mkRat_eq_divInt]
  conv_rhs => rw [← Rat.num_divInt_den a, ← Rat.num_divInt_den b,
    Rat.divInt_mul_divInt _ _ (den_int_ne a) (den_int_ne b)]
  push_cast
  ring_nf

lemma rdiv_eq (a b : Rat) : rdiv a b = a / b := by
  have hdd : a / b = Rat.divInt (a.num * (b.den : Int)) ((a.den : Int) * b.num) := by
    conv_lhs => rw [← Rat.num_divInt_den a, ← Rat.num_divInt_den b]
    rw [Rat.divInt_div_divInt]
  rcases le_or_lt 0 b.num with hb | hb
  · rw [rdiv, if_pos hb, Rat.mkRat_eq_divInt, hdd]
    congr 1
    push_cast
    rw [Int.toNat_of_nonneg hb]
  · rw [rdiv, if_neg (not_le.mpr hb), Rat.mkRat_eq_divInt, hdd]
    have hcast : ((a.den * (-b.num).toNat : Nat) : Int) = (a.den : Int) * (-b.num) := by
      push_cast
      rw [Int.toNat_of_nonneg (by omega : (0 : Int) ≤ -b.num)]
    rw [hcast]
    rw [show (a.den : Int) * (-b.num) = -((a.den : Int) * b.num) by ring]
    rw [Rat.divInt_neg, Int.neg_neg]

lemma rsum_eq (l : List Rat) : rsum l = l.sum := by
  induction l with
  | nil => rfl
  | cons a as ih =>
    rw [rsum, List.foldr_cons, List.sum_cons]
    rw [show List.foldr radd 0 as = rsum as from rfl, ih, radd_eq]

lemma pyInt_eq_floor (q : Rat) (h : 0 ≤ q) : pyInt q = q.floor := by
  rw [pyInt, Rat.floor_def']
  exact Int.tdiv_eq_ediv (Rat.num_nonneg.mpr h) (Int.natCast_nonneg q.den)

lemma charListLe_total : ∀ l1 l2 : List Char, charListLe l1 l2 || charListLe l2 l1
  | [], l2 => by simp [charListLe]
  | a :: as, [] => by simp [charListLe]
  | a :: as, b :: bs => by
    simp only [charListLe]
    rcases lt_trichotomy a b with h | h | h
    · rw [if_pos h]; rfl
    · subst h
      simp only [if_neg (lt_irrefl a)]
      exact charListLe_total as bs
    · rw [if_neg (not_lt.mpr h.le), if_pos h, if_pos h]
      simp

lemma charListLe_trans : ∀ l1 l2 l3 : List Char,
    charListLe l1 l2 = true → charListLe l2 l3 = true → charListLe l1 l3 = true
  | [], _, _, _, _ => rfl
  | a :: as, [], l3, h12, _ => by cases h12
  | a :: as, b :: bs, [], _, h23 => by cases h23
  | a :: as, b :: bs, c :: cs, h12, h23 => by
    simp only [charListLe] at h12 h23 ⊢
    rcases lt_trichotomy a b with hab | hab | hab
    · rcases lt_trichotomy b c with hbc | hbc | hbc
      · rw [if_pos (hab.trans hbc)]
      · subst hbc; rw [if_pos hab]
      · rw [if_neg (not_lt.mpr hbc.le), if_pos hbc] at h23; cases h23
    · subst hab
      rcases lt_trichotomy a c with hac | hac | hac
      · rw [if_pos hac]
      · subst hac
        rw [if_neg (lt_irrefl a), if_neg (lt_irrefl a)] at h12 h23 ⊢
        exact charListLe_trans as bs cs h12 h23
      · rw [if_neg (not_lt.mpr hac.le), if_pos hac] at h23; cases h23
    · rw [if_neg (not_lt.mpr hab.le), if_pos hab] at h12; cases h12

lemma strLe_total (a b : String) : strLe a b || strLe b a :=
  charListLe_total a.data b.data

lemma strLe_trans (a b c : String) (h1 : strLe a b = true) (h2 : strLe b c = true) :
    strLe a c = true :=
  charListLe_trans a.data b.data c.data h1 h2

lemma descFracLe_total (a b : Rat × String) : descFracLe a b || descFracLe b a := by
  simp only [descFracLe]
  rcases lt_trichotomy a.1 b.1 with h | h | h
  · rw [decide_eq_true h]
    simp
  · rw [decide_eq_true h, decide_eq_true h.symm]
    have := strLe_total b.2 a.2
    rcases Bool.or_eq_true_iff.mp this with hs | hs
    · rw [hs]; simp
    · rw [hs]; simp
  · rw [decide_eq_true h]; simp

lemma descFracLe_trans (a b c : Rat × String)
    (h1 : descFracLe a b = true) (h2 : descFracLe b c = true) :
    descFracLe a c = true := by
  simp only [descFracLe, Bool.or_eq_true_iff, Bool.and_eq_true, decide_eq_true_eq] at h1 h2 ⊢
  rcases h1 with h1 | ⟨h1e, h1s⟩
  · rcases h2 with h2 | ⟨h2e, h2s⟩
    · exact Or.inl (h2.trans h1)
    · exact Or.inl (h2e ▸ h1)
  · rcases h2 with h2 | ⟨h2e, h2s⟩
    · exact Or.inl (h1e ▸ h2)
    · exact Or.inr ⟨h1e.trans h2e, strLe_trans c.2 b.2 a.2 h2s h1s⟩

lemma takeGuard_zero (used : List String) (bucket : List Track) :
    takeGuard used 0 bucket = ⟨[], used, 0, bucket⟩ := by
  cases bucket <;> rfl

lemma takeGuard_spec :
    ∀ (bucket : List Track) (used : List String) (need : Nat),
      ((takeGuard used need bucket).picked ⊆ bucket) ∧
      ((takeGuard used need bucket).rest ⊆ bucket) ∧
      (∀ x, x ∈ (takeGuard used need bucket).used ↔
        x ∈ (takeGuard used need bucket).picked.map (fun t => t.id) ∨ x ∈ used) ∧
      (((takeGuard used need bucket).picked.map (fun t => t.id)).Nodup) ∧
      (∀ x ∈ (takeGuard used need bucket).picked.map (fun t => t.id), x ∉ used) ∧
      (∀ t ∈ bucket,
        t.id ∈ (takeGuard used need bucket).used ∨ t ∈ (takeGuard used need bucket).rest)
  | [], used, need => by
    refine ⟨by simp [takeGuard], by simp [takeGuard], ?_, by simp [takeGuard],
      by simp [takeGuard], by simp [takeGuard]⟩
    intro x
    simp [takeGuard]
  | t :: rest, used, 0 => by
    rw [takeGuard_zero]
    refine ⟨by simp, List.Subset.refl _, ?_, by simp, by simp, ?_⟩
    · intro x; simp
    · intro t' ht'; exact Or.inr ht'
  | t :: rest, used, Nat.succ m => by
    simp only [takeGuard]
    split
    case isTrue hc =>
      obtain ⟨hp, hr, hu, hn, hf, hcons⟩ := takeGuard_spec rest used (Nat.succ m)
      refine ⟨fun x hx => List.mem_cons_of_mem t (hp hx),
        fun x hx => List.mem_cons_of_mem t (hr hx), hu, hn, hf, ?_⟩
      intro t' ht'
      rcases List.mem_cons.mp ht' with rfl | ht'
      · exact Or.inl ((hu t'.id).mpr (Or.inr ((contains_eq_mem used t'.id).mp hc)))
      · exact hcons t' ht'
    case isFalse hc =>
      obtain ⟨hp, hr, hu, hn, hf, hcons⟩ := takeGuard_spec rest (t.id :: used) m
      have hfresh : t.id ∉ used := fun hmem => hc ((contains_eq_mem used t.id).mpr hmem)
      refine ⟨?_, fun x hx => List.mem_cons_of_mem t (hr hx), ?_, ?_, ?_, ?_⟩
      · intro x hx
        rcases List.mem_cons.mp hx with rfl | hx
        · exact List.mem_cons_self _ _
        · exact List.mem_cons_of_mem t (hp hx)
      · intro x
        rw [hu x]
        simp only [List.map_cons, List.mem_cons]
        constructor
        · rintro (hx | (rfl | hx))
          · exact Or.inl (Or.inr hx)
          · exact Or.inl (Or.inl rfl)
          · exact Or.inr hx
        · rintro ((rfl | hx) | hx)
          · exact Or.inr (Or.inl rfl)
          · exact Or.inl hx
          · exact Or.inr (Or.inr hx)
      · rw [List.map_cons, List.nodup_cons]
        refine ⟨fun hmem => ?_, hn⟩
        exact hf t.id hmem (List.mem_cons_self _ _)
      · intro x hx
        rcases List.mem_cons.mp hx with rfl | hx
        · exact hfresh
        · intro hmem
          exact hf x hx (List.mem_cons_of_mem _ hmem)
      · intro t' ht'
        rcases List.mem_cons.mp ht' with rfl | ht'
        · exact Or.inl ((hu t'.id).mpr (Or.inr (List.mem_cons_self _ _)))
        · exact hcons t' ht'

lemma takeGuard_picked_sub (used : List String) (need : Nat) (bucket : List Track) :
    (takeGuard used need bucket).picked ⊆ bucket :=
  (takeGuard_spec bucket used need).1

lemma takeGuard_rest_sub (used : List String) (need : Nat) (bucket : List Track) :
    (takeGuard used need bucket).rest ⊆ bucket :=
  (takeGuard_spec bucket used need).2.1

lemma takeGuard_used_iff (used : List String) (need : Nat) (bucket : List Track) :
    ∀ x, x ∈ (takeGuard used need bucket).used ↔
      x ∈ (takeGuard used need bucket).picked.map (fun t => t.id) ∨ x ∈ used :=
  (takeGuard_spec bucket used need).2.2.1

lemma takeGuard_used_mono (used : List String) (need : Nat) (bucket : List Track) :
    ∀ x ∈ used, x ∈ (takeGuard used need bucket).used := fun x hx =>
  (takeGuard_used_iff used need bucket x).mpr (Or.inr hx)

lemma takeGuard_conserve (used : List String) (need : Nat) (bucket : List Track) :
    ∀ t ∈ bucket,
      t.id ∈ (takeGuard used need bucket).used ∨ t ∈ (takeGuard used need bucket).rest :=
  (takeGuard_spec bucket used need).2.2.2.2.2

/-- The invariant tying the used-id list to the current selection: the
selection has pairwise-distinct ids and `used` holds exactly those ids. -/
def UsedInv (sel : List Track) (used : List String) : Prop :=
  (sel.map (fun t => t.id)).Nodup ∧ ∀ x, x ∈ used ↔ x ∈ sel.map (fun t => t.id)

lemma UsedInv_nil : UsedInv [] [] := by
  constructor
  · exact List.nodup_nil
  · intro x; simp

lemma UsedInv_takeGuard {sel : List Track} {used : List String}
    (h : UsedInv sel used) (need : Nat) (bucket : List Track) :
    UsedInv (sel ++ (takeGuard used need bucket).picked)
      (takeGuard used need bucket).used := by
  obtain ⟨hnd, hiff⟩ := h
  constructor
  · rw [List.map_append, List.nodup_append]
    refine ⟨hnd, (takeGuard_spec bucket used need).2.2.2.1, ?_⟩
    intro x hx hx'
    exact (takeGuard_spec bucket used need).2.2.2.2.1 x hx' ((hiff x).mpr hx)
  · intro x
    rw [takeGuard_used_iff used need bucket x, List.map_append, List.mem_append,
      hiff x]
    tauto

lemma fillPool_spec (n : Nat) (gupd : Track → (String → Nat) → (String → Nat)) :
    ∀ (pool : List Track) (st : FillRes),
      (UsedInv st.sel st.used →
        UsedInv (fillPool n gupd pool st).sel (fillPool n gupd pool st).used) ∧
      (∀ x ∈ st.used, x ∈ (fillPool n gupd pool st).used) ∧
      (∀ t ∈ (fillPool n gupd pool st).sel, t ∈ st.sel ∨ t ∈ pool) ∧
      ((fillPool n gupd pool st).sel.length < n →
        ∀ t ∈ pool, t.id ∈ (fillPool n gupd pool st).used)
  | [], st => by
    refine ⟨fun h => h, fun x hx => hx, fun t ht => Or.inl ht, ?_⟩
    intro _ t ht
    cases ht
  | t :: rest, st => by
    simp only [fillPool]
    split
    case isFalse hlen =>
      refine ⟨fun h => h, fun x hx => hx, fun t' ht' => Or.inl ht', ?_⟩
      intro hlt
      exact absurd hlt hlen
    case isTrue hlen =>
      split
      case isTrue hc =>
        obtain ⟨hinv, hmono, hmem, hexh⟩ := fillPool_spec n gupd rest st
        refine ⟨hinv, hmono, ?_, ?_⟩
        · intro t' ht'
          rcases hmem t' ht' with h | h
          · exact Or.inl h
          · exact Or.inr (List.mem_cons_of_mem t h)
        · intro hlt t' ht'
          rcases List.mem_cons.mp ht' with rfl | ht'
          · exact hmono t'.id ((contains_eq_mem st.used t'.id).mp hc)
          · exact hexh hlt t' ht'
      case isFalse hc =>
        have hfresh : t.id ∉ st.used :=
          fun hmem => hc ((contains_eq_mem st.used t.id).mpr hmem)
        set st' : FillRes :=
          ⟨st.sel ++ [t], t.id :: st.used, bump st.contrib t.user_id 1,
            gupd t st.gcontrib⟩ with hst'
        obtain ⟨hinv, hmono, hmem, hexh⟩ := fillPool_spec n gupd rest st'
        refine ⟨?_, ?_, ?_, ?_⟩
        · intro h
          refine hinv ?_
          obtain ⟨hnd, hiff⟩ := h
          constructor
          · rw [hst']
            simp only [List.map_append, List.map_cons, List.map_nil]
            rw [List.nodup_append]
            refine ⟨hnd, List.nodup_singleton _, ?_⟩
            intro x hx hx'
            rw [List.mem_singleton] at hx'
            subst hx'
            exact hfresh ((hiff _).mpr hx)
          · intro x
            rw [hst']
            simp only [List.mem_cons, List.map_append, List.map_cons, List.map_nil,
              List.mem_append, List.mem_singleton, hiff x]
            tauto
        · intro x hx
          exact hmono x (List.mem_cons_of_mem t.id hx)
        · intro t' ht'
          rcases hmem t' ht' with h | h
          · rw [hst'] at h
            rcases List.mem_append.mp h with h | h
            · exact Or.inl h
            · rcases List.mem_singleton.mp h with rfl
              exact Or.inr (List.mem_cons_self _ _)
          · exact Or.inr (List.mem_cons_of_mem t h)
        · intro hlt t' ht'
          rcases List.mem_cons.mp ht' with rfl | ht'
          · exact hmono t'.id (List.mem_cons_self _ _)
          · exact hexh hlt t' ht'

lemma fillPool_contrib_untouched (n : Nat)
    (gupd : Track → (String → Nat) → (String → Nat)) (g : String) :
    ∀ (pool : List Track) (st : FillRes),
      (∀ t ∈ pool, t.user_id ≠ g) →
      (fillPool n gupd pool st).contrib g = st.contrib g
  | [], st, _ => rfl
  | t :: rest, st, h => by
    simp only [fillPool]
    split
    case isFalse hlen => rfl
    case isTrue hlen =>
      split
      case isTrue hc =>
        exact fillPool_contrib_untouched n gupd g rest st
          (fun t' ht' => h t' (List.mem_cons_of_mem t ht'))
      case isFalse hc =>
        rw [fillPool_contrib_untouched n gupd g rest _
          (fun t' ht' => h t' (List.mem_cons_of_mem t ht'))]
        simp only [bump]
        rw [if_neg ?_]
        intro heq
        exact h t (List.mem_cons_self t rest) (heq ▸ rfl)

lemma singlePhase1_spec (targets : String → Nat) (fmt : String → Nat → Nat → String) :
    ∀ (users : List String) (st : SingleSt),
      (UsedInv st.sel st.used →
        UsedInv (singlePhase1 targets fmt users st).sel
          (singlePhase1 targets fmt users st).used) ∧
      (∀ x ∈ st.used, x ∈ (singlePhase1 targets fmt users st).used) ∧
      (∀ u t, t ∈ st.rest u →
        t.id ∈ (singlePhase1 targets fmt users st).used ∨
        t ∈ (singlePhase1 targets fmt users st).rest u) ∧
      (∀ t ∈ (singlePhase1 targets fmt users st).sel,
        t ∈ st.sel ∨ ∃ u ∈ users, t ∈ st.rest u) ∧
      (∀ u, (singlePhase1 targets fmt users st).rest u ⊆ st.rest u) ∧
      (∀ g, g ∉ users → (singlePhase1 targets fmt users st).contrib g = st.contrib g)
  | [], st => by
    refine ⟨fun h => h, fun x hx => hx, fun u t ht => Or.inr ht,
      fun t ht => Or.inl ht, fun u => List.Subset.refl _, fun g _ => rfl⟩
  | u :: us, st => by
    simp only [singlePhase1]
    set r := takeGuard st.used (targets u) (st.rest u) with hr
    set st1 : SingleSt :=
      { sel := st.sel ++ r.picked
        used := r.used
        contrib := bump st.contrib u r.cnt
        warnings :=
          if r.cnt < targets u then
            st.warnings ++ [fmt u (bump st.contrib u r.cnt u) (targets u)]
          else st.warnings
        rest := fun v => if v = u then r.rest else st.rest v } with hst1
    obtain ⟨ihinv, ihmono, ihcons, ihsel, ihrest, ihcontrib⟩ :=
      singlePhase1_spec targets fmt us st1
    refine ⟨?_, ?_, ?_, ?_, ?_, ?_⟩
    · intro h
      exact ihinv (UsedInv_takeGuard h (targets u) (st.rest u))
    · intro x hx
      exact ihmono x (takeGuard_used_mono st.used (targets u) (st.rest u) x hx)
    · intro v t ht
      by_cases hv : v = u
      · subst hv
        rcases takeGuard_conserve st.used (targets v) (st.rest v) t ht with h | h
        · exact Or.inl (ihmono t.id h)
        · have ht1 : t ∈ st1.rest v := by
            rw [hst1]
            simp only [if_pos rfl]
            exact h
          exact ihcons v t ht1
      · have ht1 : t ∈ st1.rest v := by
          rw [hst1]
          simp only [if_neg hv]
          exact ht
        exact ihcons v t ht1
    · intro t ht
      rcases ihsel t ht with h | ⟨v, hv, h⟩
      · rw [hst1] at h
        rcases List.mem_append.mp h with h | h
        · exact Or.inl h
        · exact Or.inr ⟨u, List.mem_cons_self u us,
            takeGuard_picked_sub st.used (targets u) (st.rest u) h⟩
      · rw [hst1] at h
        simp only at h
        by_cases hvu : v = u
        · rw [if_pos hvu] at h
          exact Or.inr ⟨u, List.mem_cons_self u us, hvu ▸
            takeGuard_rest_sub st.used (targets u) (st.rest u) h⟩
        · rw [if_neg hvu] at h
          exact Or.inr ⟨v, List.mem_cons_of_mem u hv, h⟩
    · intro v x hx
      have := ihrest v hx
      rw [hst1] at this
      simp only at this
      by_cases hvu : v = u
      · rw [if_pos hvu] at this
        subst hvu
        exact takeGuard_rest_sub st.used (targets v) (st.rest v) this
      · rw [if_neg hvu] at this
        exact this
    · intro g hg
      have hgus : g ∉ us := fun h => hg (List.mem_cons_of_mem u h)
      have hgu : g ≠ u := fun h => hg (h ▸ List.mem_cons_self u us)
      rw [ihcontrib g hgus, hst1]
      simp only [bump]
      rw [if_neg hgu]

lemma singlePool_mem (poolUsers : List String) (rest : String → List Track)
    (used : List String) (t : Track) :
    t ∈ singlePool poolUsers rest used ↔
      ∃ u ∈ poolUsers, t ∈ rest u ∧ ¬ t.id ∈ used := by
  rw [singlePool]
  constructor
  · intro h
    rcases List.mem_flatMap.mp h with ⟨u, hu, hmem⟩
    rw [List.mem_filter] at hmem
    refine ⟨u, hu, hmem.1, fun hid => ?_⟩
    have := hmem.2
    rw [Bool.not_eq_eq_eq_not, Bool.not_true] at this
    rw [← contains_eq_mem used t.id] at hid
    rw [this] at hid
    cases hid
  · rintro ⟨u, hu, hmem, hid⟩
    refine List.mem_flatMap.mpr ⟨u, hu, List.mem_filter.mpr ⟨hmem, ?_⟩⟩
    rw [Bool.not_eq_eq_eq_not, Bool.not_true, ← Bool.not_eq_true,
      contains_eq_mem used t.id]
    exact hid

lemma singleFill_spec (n : Nat) (poolUsers : List String) (σ : Shuffles)
    (st : SingleSt) (hshp : ∀ l, (σ.shp l).Perm l) :
    (UsedInv st.sel st.used →
      UsedInv (singleFill n poolUsers σ st).sel (singleFill n poolUsers σ st).used) ∧
    (∀ x ∈ st.used, x ∈ (singleFill n poolUsers σ st).used) ∧
    (∀ t ∈ (singleFill n poolUsers σ st).sel,
      t ∈ st.sel ∨ ∃ u ∈ poolUsers, t ∈ st.rest u) ∧
    ((singleFill n poolUsers σ st).sel.length < n →
      ∀ u ∈ poolUsers, ∀ t ∈ st.rest u, t.id ∈ (singleFill n poolUsers σ st).used) ∧
    ((singleFill n poolUsers σ st).contrib = st.contrib ∨
      ∃ pool : List Track,
        (∀ t ∈ pool, ∃ u ∈ poolUsers, t ∈ st.rest u) ∧
        (singleFill n poolUsers σ st).contrib =
          (fillPool n (fun _ gc => gc) ((σ.shp pool).reverse)
            ⟨st.sel, st.used, st.contrib, fun _ => 0⟩).contrib) := by
  rw [singleFill]
  split
  case isFalse hlen =>
    refine ⟨fun h => h, fun x hx => hx, fun t ht => Or.inl ht, ?_, Or.inl rfl⟩
    intro hlt
    exact absurd hlt hlen
  case isTrue hlen =>
    set pool := singlePool poolUsers st.rest st.used with hpool
    set poolR := (σ.shp pool).reverse with hpoolR
    have hmemR : ∀ t : Track, t ∈ poolR ↔ t ∈ pool := by
      intro t
      rw [hpoolR, List.mem_reverse]
      exact (hshp pool).mem_iff
    obtain ⟨finv, fmono, fmem, fexh⟩ :=
      fillPool_spec n (fun _ gc => gc) poolR ⟨st.sel, st.used, st.contrib, fun _ => 0⟩
    refine ⟨?_, ?_, ?_, ?_, ?_⟩
    · intro h
      exact finv h
    · intro x hx
      exact fmono x hx
    · intro t ht
      rcases fmem t ht with h | h
      · exact Or.inl h
      · rcases (singlePool_mem poolUsers st.rest st.used t).mp
          ((hmemR t).mp h) with ⟨u, hu, hmem, _⟩
        exact Or.inr ⟨u, hu, hmem⟩
    · intro hlt u hu t ht
      by_cases hid : t.id ∈ st.used
      · exact fmono t.id hid
      · refine fexh hlt t ((hmemR t).mpr ?_)
        exact (singlePool_mem poolUsers st.rest st.used t).mpr ⟨u, hu, ht, hid⟩
    · refine Or.inr ⟨pool, ?_, rfl⟩
      intro t ht
      rcases (singlePool_mem poolUsers st.rest st.used t).mp ht with ⟨u, hu, hmem, _⟩
      exact ⟨u, hu, hmem⟩

lemma finalize_length_le (n : Nat) (σ : Shuffles) (sel : List Track) :
    (finalize n σ sel).length ≤ n := by
  rw [finalize]
  split
  case isTrue h => rw [List.length_take]; exact min_le_left n _
  case isFalse h => exact Nat.not_lt.mp h

lemma finalize_length_eq (n : Nat) (σ : Shuffles) (sel : List Track)
    (hshf : ∀ l, (σ.shf l).Perm l) (h : n ≤ sel.length) :
    (finalize n σ sel).length = n := by
  have hl : (σ.shf sel).length = sel.length := (hshf sel).length_eq
  rw [finalize]
  split
  case isTrue hlt => rw [List.length_take, hl]; exact Nat.min_eq_left h
  case isFalse hlt =>
    rw [hl]
    exact Nat.le_antisymm (hl ▸ Nat.not_lt.mp hlt) h

lemma finalize_mem (n : Nat) (σ : Shuffles) (sel : List Track)
    (hshf : ∀ l, (σ.shf l).Perm l) :
    ∀ t ∈ finalize n σ sel, t ∈ sel := by
  intro t ht
  rw [finalize] at ht
  have hsub : t ∈ σ.shf sel := by
    split at ht
    · exact List.mem_of_mem_take ht
    · exact ht
  exact (hshf sel).mem_iff.mp hsub

lemma finalize_ids_nodup (n : Nat) (σ : Shuffles) (sel : List Track)
    (hshf : ∀ l, (σ.shf l).Perm l) (h : (sel.map (fun t => t.id)).Nodup) :
    ((finalize n σ sel).map (fun t => t.id)).Nodup := by
  have hperm : ((σ.shf sel).map (fun t => t.id)).Perm (sel.map (fun t => t.id)) :=
    (hshf sel).map _
  have hnod : ((σ.shf sel).map (fun t => t.id)).Nodup := hperm.nodup_iff.mpr h
  rw [finalize]
  split
  · exact hnod.sublist ((List.take_sublist n (σ.shf sel)).map _)
  · exact hnod

lemma finalize_nil (n : Nat) (σ : Shuffles) (hshf : ∀ l, (σ.shf l).Perm l) :
    finalize n σ [] = [] := by
  have : σ.shf [] = [] := (hshf []).eq_nil
  rw [finalize, this]
  simp

lemma equalTargets_zero (users : List String) (u : String) :
    equalTargets 0 users u = 0 := by
  rw [equalTargets]
  split
  · rfl
  · simp

lemma focusTargets_zero (wf : String → Rat) (tot : Rat) (users : List String)
    (u : String) : focusTargets 0 wf tot users u = 0 := by
  have hexact : ∀ v, rmul ((0 : Nat) : Rat) (rdiv (wf v) tot) = 0 := by
    intro v
    rw [rmul_eq]
    push_cast
    ring
  have hbase : ∀ v, (pyInt (rmul ((0 : Nat) : Rat) (rdiv (wf v) tot))).toNat = 0 := by
    intro v
    rw [hexact v]
    rfl
  simp only [focusTargets]
  rw [List.map_congr_left (fun v _ => hbase v)]
  have hsum : ((users.map fun _ => 0).sum : Nat) = 0 := by
    induction users with
    | nil => rfl
    | cons a as ih => simpa using ih
  rw [hsum, hbase u]
  simp

lemma userTargetsMulti_zero (mode : Mode) (w : List (String × Rat))
    (users : List String) (u : String) :
    userTargetsMulti mode w 0 users u = 0 := by
  cases mode with
  | Equal => exact equalTargets_zero users u
  | Focus =>
    rw [userTargetsMulti]
    split
    · rfl
    · dsimp only
      split
      · exact equalTargets_zero users u
      · exact focusTargets_zero _ _ users u

lemma singlePhase1_sel_zero (targets : String → Nat)
    (fmt : String → Nat → Nat → String) (h0 : ∀ u, targets u = 0) :
    ∀ (users : List String) (st : SingleSt),
      (singlePhase1 targets fmt users st).sel = st.sel
  | [], st => rfl
  | u :: us, st => by
    simp only [singlePhase1, h0 u, takeGuard_zero]
    rw [singlePhase1_sel_zero targets fmt h0 us]
    simp

lemma multiUserStep_zero (genre_list : List String) (targets : String → Nat)
    (h0 : ∀ u, targets u = 0) (st : MultiSt) (u : String) :
    multiUserStep genre_list targets st u = st := by
  rw [multiUserStep, h0 u]
  simp

lemma foldl_multiUserStep_zero (genre_list : List String) (targets : String → Nat)
    (h0 : ∀ u, targets u = 0) :
    ∀ (users : List String) (st : MultiSt),
      users.foldl (multiUserStep genre_list targets) st = st
  | [], st => rfl
  | u :: us, st => by
    rw [List.foldl_cons, multiUserStep_zero genre_list targets h0 st u,
      foldl_multiUserStep_zero genre_list targets h0 us st]

lemma singleTail_fst (n : Nat) (gs gl : List String) (σ : Shuffles) (st : SingleSt) :
    (singleTail n gs gl σ st).1 = finalize n σ st.sel := rfl

lemma singleEqualCore_sel_zero (tracks : List Track) (σ : Shuffles) :
    (singleEqualCore tracks 0 σ).sel = [] := by
  rw [singleEqualCore]
  split
  · rfl
  · rw [singleFill, if_neg (Nat.not_lt_zero _)]
    exact singlePhase1_sel_zero _ _ (fun u => equalTargets_zero _ u) _ _

lemma singleFocusCore_sel_zero (tracks : List Track) (w : List (String × Rat))
    (σ : Shuffles) : (singleFocusCore tracks 0 w σ).sel = [] := by
  rw [singleFocusCore, singleFill, if_neg (Nat.not_lt_zero _)]
  exact singlePhase1_sel_zero _ _ (fun u => focusTargets_zero _ _ _ u) _ _

lemma multiPhase2_not_fill (n : Nat) (gl : List String) (σ : Shuffles)
    (users : List String) (st1 : MultiSt) (h : ¬ st1.sel.length < n) :
    multiPhase2 n gl σ users st1 = ⟨st1.sel, st1.used, st1.contrib, st1.gcontrib⟩ := by
  rw [multiPhase2, if_neg h]

/-- C4 (amended): `allocate_tracks` never fails fast.  On an empty track
population it returns the normal empty result `([], {"user_contribution": {},
"warnings": []}, {})` from its first line, and with `target_size = 0` (the
`target_size <= 0` case for the natural-number target) it returns an empty
selection; no "invalid configuration" — or any other — error kind exists. -/
theorem C4_amended :
    (∀ (mode : Mode) (n : Nat) (w : List (String × Rat)) (gs : List String)
        (σ : Shuffles),
      allocate_tracks [] mode n w gs σ = ([], ⟨fun _ => 0, []⟩, fun _ => 0)) ∧
    (∀ (tracks : List Track) (mode : Mode) (w : List (String × Rat))
        (gs : List String) (σ : Shuffles), permShuffles σ →
      (allocate_tracks tracks mode 0 w gs σ).1 = []) := by
  constructor
  · intro mode n w gs σ
    rfl
  · intro tracks mode w gs σ hσ
    obtain ⟨hshu, hshp, hshf⟩ := hσ
    rw [allocate_tracks]
    by_cases he : tracks.isEmpty
    · rw [if_pos he]
    · rw [if_neg he]
      dsimp only
      split
      · rw [multiPath, multiEngine]
        rw [foldl_multiUserStep_zero _ _
          (fun u => userTargetsMulti_zero mode w (sortedUsers tracks) u)]
        rw [multiPhase2_not_fill _ _ _ _ _ (Nat.not_lt_zero _)]
        exact finalize_nil 0 σ hshf
      · cases mode with
        | Equal =>
          rw [singlePath, singleEqualRun, singleTail_fst,
            singleEqualCore_sel_zero tracks σ]
          exact finalize_nil 0 σ hshf
        | Focus =>
          rw [singlePath]
          split <;> split <;>
            first
              | (rw [singleEqualRun, singleTail_fst,
                  singleEqualCore_sel_zero tracks σ]
                 exact finalize_nil 0 σ hshf)
              | (rw [singleTail_fst, singleEqualCore_sel_zero tracks σ]
                 exact finalize_nil 0 σ hshf)
              | (rw [singleTail_fst, singleFocusCore_sel_zero]
                 exact finalize_nil 0 σ hshf)

/-- Witness for C4 (amended): both parts applied at concrete inputs. -/
theorem C4_amended_witness :
    allocate_tracks [] Mode.Focus 7 [("a", (1 : Rat))] ["g"] idShuffles =
      ([], ⟨fun _ => 0, []⟩, fun _ => 0) ∧
    (allocate_tracks [{ id := "a1", user_id := "a" }] Mode.Equal 0 [] []
      idShuffles).1 = [] :=
  ⟨C4_amended.1 Mode.Focus 7 [("a", (1 : Rat))] ["g"] idShuffles,
    C4_amended.2 [{ id := "a1", user_id := "a" }] Mode.Equal [] [] idShuffles
      idShuffles_perm⟩

lemma wlookup_nonpos (w : List (String × Rat)) (hz : ∀ p ∈ w, p.2 ≤ 0)
    (u : String) : wlookup w u ≤ 0 := by
  rw [wlookup]
  cases hf : w.find? (fun p => p.1 == u) with
  | none => exact le_refl 0
  | some p => exact hz p (List.mem_of_find?_eq_some hf)

lemma rsum_map_zero {α : Type _} (l : List α) :
    rsum (l.map fun _ => (0 : Rat)) = 0 := by
  induction l with
  | nil => rfl
  | cons a as ih =>
    rw [List.map_cons, rsum, List.foldr_cons,
      show List.foldr radd 0 (as.map fun _ => (0 : Rat)) =
        rsum (as.map fun _ => (0 : Rat)) from rfl, ih, radd_eq]
    norm_num

lemma isEmpty_false_of_ne_nil {α : Type _} {l : List α} (h : l ≠ []) :
    l.isEmpty = false := by
  cases l with
  | nil => exact absurd rfl h
  | cons a as => rfl

lemma userTargetsMulti_focus_allzero (w : List (String × Rat)) (hw : w ≠ [])
    (hz : ∀ p ∈ w, p.2 ≤ 0) (n : Nat) (users : List String) :
    userTargetsMulti Mode.Focus w n users =
      userTargetsMulti Mode.Equal [] n users := by
  simp only [userTargetsMulti]
  rw [if_neg (by rw [isEmpty_false_of_ne_nil hw]; exact Bool.false_ne_true)]
  have hweights : ∀ u, max 0 (wlookup w u) = 0 := fun u =>
    max_eq_left (wlookup_nonpos w hz u)
  rw [List.map_congr_left (fun u _ => hweights u), rsum_map_zero,
    if_pos (le_refl (0 : Rat))]

/-- C7: calling `allocate_tracks` in Focus mode with every supplied weight
zero or negative produces exactly the result of calling it in Equal mode with
the same tracks, target size, selected genres (and the same shuffle draws);
no error is raised — the embedding is a total function and the two runs are
equal. -/
theorem C7_all_zero_focus_equals_equal (tracks : List Track) (n : Nat)
    (w : List (String × Rat)) (gs : List String) (σ : Shuffles)
    (hw : w ≠ []) (hz : ∀ p ∈ w, p.2 ≤ 0) :
    allocate_tracks tracks Mode.Focus n w gs σ =
      allocate_tracks tracks Mode.Equal n [] gs σ := by
  rw [allocate_tracks, allocate_tracks]
  by_cases he : tracks.isEmpty
  · rw [if_pos he, if_pos he]
  · rw [if_neg he, if_neg he]
    by_cases hml : 1 < (genreListOf tracks gs).length
    · rw [if_pos hml, if_pos hml, multiPath, multiPath,
        userTargetsMulti_focus_allzero w hw hz n (sortedUsers tracks)]
    · rw [if_neg hml, if_neg hml]
      show singlePath tracks Mode.Focus n w gs (genreListOf tracks gs) σ =
        singlePath tracks Mode.Equal n [] gs (genreListOf tracks gs) σ
      rw [singlePath, singlePath]
      have hw' : (if w.isEmpty = true then defaultWeights tracks else w) = w := by
        rw [isEmpty_false_of_ne_nil hw]
        simp
      rw [hw']
      have hact : activeUsers tracks w = [] := by
        rw [activeUsers, List.filter_eq_nil_iff]
        intro u _
        rw [decide_eq_true_eq]
        exact not_lt.mpr (wlookup_nonpos w hz u)
      rw [hact]
      rw [show (([] : List String).map (wlookup w)) = ([] : List Rat) from rfl]
      rw [show rsum ([] : List Rat) = 0 from rfl]
      rw [if_pos (le_refl (0 : Rat))]

/-- Witness for C7 at a concrete input: one guest with one track, supplied
weight 0. -/
theorem C7_all_zero_focus_equals_equal_witness :
    allocate_tracks [{ id := "a1", user_id := "a" }] Mode.Focus 1
      [("a", (0 : Rat))] [] idShuffles =
    allocate_tracks [{ id := "a1", user_id := "a" }] Mode.Equal 1 [] []
      idShuffles :=
  C7_all_zero_focus_equals_equal [{ id := "a1", user_id := "a" }] 1
    [("a", (0 : Rat))] [] idShuffles (by simp)
    (by intro p hp; rcases List.mem_singleton.mp hp with rfl; exact le_refl 0)

lemma singleTail_contrib (n : Nat) (gs gl : List String) (σ : Shuffles)
    (st : SingleSt) :
    (singleTail n gs gl σ st).2.1.user_contribution = st.contrib := rfl

lemma initialBuckets_user (tracks : List Track) (σ : Shuffles)
    (hshu : ∀ u l, (σ.shu u l).Perm l) (u : String) :
    ∀ t ∈ initialBuckets tracks σ u, t.user_id = u := by
  intro t ht
  rw [initialBuckets] at ht
  have := (hshu u _).mem_iff.mp ht
  have hf := (List.mem_filter.mp this).2
  rw [beq_iff_eq] at hf
  exact hf

lemma mem_activeUsers_pos (tracks : List Track) (w : List (String × Rat))
    (u : String) (hu : u ∈ activeUsers tracks w) : 0 < wlookup w u := by
  rw [activeUsers] at hu
  have := (List.mem_filter.mp hu).2
  rw [decide_eq_true_eq] at this
  exact this

/-- C3 (amended): on the single-genre path in Focus mode (with supplied
weights summing positively over the active guests), a guest whose weight is 0
— or absent from the mapping — reports `user_contribution = 0` and owns no
track of the selection, phase-2 filler included.  (On the multi-genre path
only the phase-1 target is 0; the phase-2 global pool may still add the
guest's tracks — see the counterexample.) -/
theorem C3_amended (tracks : List Track) (n : Nat) (w : List (String × Rat))
    (gs : List String) (σ : Shuffles) (hσ : permShuffles σ)
    (hsingle : ¬ 1 < (genreListOf tracks gs).length)
    (hw : w ≠ [])
    (hpos : ¬ rsum ((activeUsers tracks w).map (wlookup w)) ≤ 0)
    (g : String) (hg : wlookup w g = 0) :
    (allocate_tracks tracks Mode.Focus n w gs σ).2.1.user_contribution g = 0 ∧
    ∀ t ∈ (allocate_tracks tracks Mode.Focus n w gs σ).1, t.user_id ≠ g := by
  obtain ⟨hshu, hshp, hshf⟩ := hσ
  by_cases he : tracks.isEmpty
  · rw [allocate_tracks, if_pos he]
    exact ⟨rfl, fun t ht => absurd ht (List.not_mem_nil t)⟩
  · have hw' : (if w.isEmpty = true then defaultWeights tracks else w) = w := by
      rw [isEmpty_false_of_ne_nil hw]
      simp
    have hres : allocate_tracks tracks Mode.Focus n w gs σ =
        singleTail n gs (genreListOf tracks gs) σ (singleFocusCore tracks n w σ) := by
      rw [allocate_tracks, if_neg he, if_neg hsingle, singlePath, hw', if_neg hpos]
    rw [hres]
    have hgact : g ∉ activeUsers tracks w := by
      intro hmem
      have := mem_activeUsers_pos tracks w g hmem
      rw [hg] at this
      exact lt_irrefl 0 this
    set st0 : SingleSt :=
      ⟨[], [], fun _ => 0, [], initialBuckets tracks σ⟩ with hst0
    set targets := focusTargets n (wlookup w)
      (rsum ((activeUsers tracks w).map (wlookup w))) (activeUsers tracks w) with htg
    set st1 := singlePhase1 targets warnFocus (activeUsers tracks w) st0 with hst1
    have hcore : singleFocusCore tracks n w σ =
        singleFill n (activeUsers tracks w) σ st1 := rfl
    obtain ⟨p1inv, p1mono, p1cons, p1sel, p1rest, p1contrib⟩ :=
      singlePhase1_spec targets warnFocus (activeUsers tracks w) st0
    obtain ⟨finv, fmono, fmem, fexh, fcontrib⟩ :=
      singleFill_spec n (activeUsers tracks w) σ st1 hshp
    have huser_ne : ∀ u ∈ activeUsers tracks w, ∀ t,
        t ∈ initialBuckets tracks σ u → t.user_id ≠ g := by
      intro u hu t htb heq
      have := initialBuckets_user tracks σ hshu u t htb
      rw [heq] at this
      subst this
      exact hgact hu
    constructor
    · rw [singleTail_contrib, hcore]
      have h1 : st1.contrib g = 0 := by
        rw [hst1, p1contrib g hgact]
      rcases fcontrib with hsame | ⟨pool, hpoolmem, hpeq⟩
      · rw [hsame, h1]
      · rw [hpeq]
        have : ∀ t ∈ (σ.shp pool).reverse, t.user_id ≠ g := by
          intro t ht
          have htp : t ∈ pool := (hshp pool).mem_iff.mp (List.mem_reverse.mp ht)
          rcases hpoolmem t htp with ⟨u, hu, hrest⟩
          exact huser_ne u hu t (p1rest u hrest)
        rw [fillPool_contrib_untouched n _ g _ _ this]
        exact h1
    · intro t ht heq
      rw [singleTail_fst, hcore] at ht
      have htc : t ∈ (singleFill n (activeUsers tracks w) σ st1).sel :=
        finalize_mem n σ _ hshf t ht
      rcases fmem t htc with h | ⟨u, hu, hrest⟩
      · rcases p1sel t h with h0 | ⟨u, hu, hrest⟩
        · exact absurd h0 (List.not_mem_nil t)
        · exact huser_ne u hu t hrest heq
      · exact huser_ne u hu t (p1rest u hrest) heq

/-- Witness for C3 (amended) at a concrete input: guest "b" with weight 0
contributes nothing on the single-genre Focus path. -/
theorem C3_amended_witness :
    (allocate_tracks tracksC1 Mode.Focus 2 [("a", (1 : Rat)), ("b", 0)] []
      idShuffles).2.1.user_contribution "b" = 0 ∧
    ∀ t ∈ (allocate_tracks tracksC1 Mode.Focus 2 [("a", (1 : Rat)), ("b", 0)] []
      idShuffles).1, t.user_id ≠ "b" :=
  C3_amended tracksC1 2 [("a", (1 : Rat)), ("b", 0)] [] idShuffles idShuffles_perm
    (by decide) (by decide) (by decide) "b" (by decide)

lemma multiLoop1_spec (u : String) (desired : String → Nat) :
    ∀ (gl : List String) (st : MultiSt),
      (UsedInv st.sel st.used →
        UsedInv (multiLoop1 u desired gl st).sel (multiLoop1 u desired gl st).used) ∧
      (∀ x ∈ st.used, x ∈ (multiLoop1 u desired gl st).used) ∧
      (∀ v h t, t ∈ st.gb v h →
        t.id ∈ (multiLoop1 u desired gl st).used ∨
        t ∈ (multiLoop1 u desired gl st).gb v h) ∧
      ((multiLoop1 u desired gl st).ob = st.ob)
  | [], st => ⟨fun h => h, fun x hx => hx, fun v h t ht => Or.inr ht, rfl⟩
  | g :: gs, st => by
    simp only [multiLoop1]
    set r := takeGuard st.used (desired g) (st.gb u g) with hr
    set st1 : MultiSt :=
      { sel := st.sel ++ r.picked
        used := r.used
        contrib := bump st.contrib u r.cnt
        gcontrib := bump st.gcontrib g r.cnt
        gb := fun v h => if v = u ∧ h = g then r.rest else st.gb v h
        ob := st.ob } with hst1
    obtain ⟨ihinv, ihmono, ihcons, ihob⟩ := multiLoop1_spec u desired gs st1
    refine ⟨?_, ?_, ?_, ?_⟩
    · intro h
      exact ihinv (UsedInv_takeGuard h (desired g) (st.gb u g))
    · intro x hx
      exact ihmono x (takeGuard_used_mono st.used (desired g) (st.gb u g) x hx)
    · intro v h t ht
      by_cases hvh : v = u ∧ h = g
      · have ht' : t ∈ st.gb u g := by
          rw [← hvh.1, ← hvh.2]
          exact ht
        rcases takeGuard_conserve st.used (desired g) (st.gb u g) t ht' with hc | hc
        · exact Or.inl (ihmono t.id hc)
        · refine ihcons v h t ?_
          rw [hst1]
          dsimp only
          rw [if_pos hvh]
          exact hc
      · refine ihcons v h t ?_
        rw [hst1]
        dsimp only
        rw [if_neg hvh]
        exact ht
    · rw [ihob]

lemma multiLoop2_spec (u : String) :
    ∀ (gl : List String) (sr : MultiSt × Nat),
      (UsedInv sr.1.sel sr.1.used →
        UsedInv (multiLoop2 u gl sr).1.sel (multiLoop2 u gl sr).1.used) ∧
      (∀ x ∈ sr.1.used, x ∈ (multiLoop2 u gl sr).1.used) ∧
      (∀ v h t, t ∈ sr.1.gb v h →
        t.id ∈ (multiLoop2 u gl sr).1.used ∨ t ∈ (multiLoop2 u gl sr).1.gb v h) ∧
      ((multiLoop2 u gl sr).1.ob = sr.1.ob)
  | [], sr => ⟨fun h => h, fun x hx => hx, fun v h t ht => Or.inr ht, rfl⟩
  | g :: gs, (st, remaining) => by
    simp only [multiLoop2]
    split
    · exact ⟨fun h => h, fun x hx => hx, fun v h t ht => Or.inr ht, rfl⟩
    · set r := takeGuard st.used remaining (st.gb u g) with hr
      set st1 : MultiSt :=
        { sel := st.sel ++ r.picked
          used := r.used
          contrib := bump st.contrib u r.cnt
          gcontrib := bump st.gcontrib g r.cnt
          gb := fun v h => if v = u ∧ h = g then r.rest else st.gb v h
          ob := st.ob } with hst1
      obtain ⟨ihinv, ihmono, ihcons, ihob⟩ :=
        multiLoop2_spec u gs (st1, remaining - r.cnt)
      refine ⟨?_, ?_, ?_, ?_⟩
      · intro h
        exact ihinv (UsedInv_takeGuard h remaining (st.gb u g))
      · intro x hx
        exact ihmono x (takeGuard_used_mono st.used remaining (st.gb u g) x hx)
      · intro v h t ht
        by_cases hvh : v = u ∧ h = g
        · have ht' : t ∈ st.gb u g := by
            rw [← hvh.1, ← hvh.2]
            exact ht
          rcases takeGuard_conserve st.used remaining (st.gb u g) t ht' with hc | hc
          · exact Or.inl (ihmono t.id hc)
          · refine ihcons v h t ?_
            rw [hst1]
            dsimp only
            rw [if_pos hvh]
            exact hc
        · refine ihcons v h t ?_
          rw [hst1]
          dsimp only
          rw [if_neg hvh]
          exact ht
      · rw [ihob]

lemma multiUserStep_target0 (gl : List String) (targets : String → Nat)
    (st : MultiSt) (u : String) (h0 : targets u = 0) :
    multiUserStep gl targets st u = st := by
  simp only [multiUserStep]
  rw [if_pos h0]

lemma multiUserStep_eff0 (gl : List String) (targets : String → Nat)
    (st : MultiSt) (u : String)
    (h1 : min (targets u)
      ((gl.map (fun g => (st.gb u g).length)).sum + (st.ob u).length) = 0) :
    multiUserStep gl targets st u = st := by
  simp only [multiUserStep, h1]
  split <;> simp

lemma multiUserStep_eq_go (gl : List String) (targets : String → Nat)
    (st : MultiSt) (u : String)
    (h0 : ¬ targets u = 0)
    (h1 : ¬ min (targets u)
      ((gl.map (fun g => (st.gb u g).length)).sum + (st.ob u).length) = 0) :
    multiUserStep gl targets st u =
      (let eff := min (targets u)
        ((gl.map (fun g => (st.gb u g).length)).sum + (st.ob u).length)
       let desired := fun g =>
        eff / gl.length + (if g ∈ gl.take (eff % gl.length) then 1 else 0)
       let st1 := multiLoop1 u desired gl st
       let p2 := multiLoop2 u gl (st1, eff - st1.contrib u)
       let r3 := takeGuard p2.1.used p2.2 (p2.1.ob u)
       { sel := p2.1.sel ++ r3.picked
         used := r3.used
         contrib := bump p2.1.contrib u r3.cnt
         gcontrib := p2.1.gcontrib
         gb := p2.1.gb
         ob := fun v => if v = u then r3.rest else p2.1.ob v }) := by
  simp only [multiUserStep]
  rw [if_neg h0, if_neg h1]

lemma multiUserStep_spec (gl : List String) (targets : String → Nat)
    (st : MultiSt) (u : String) :
    (UsedInv st.sel st.used →
      UsedInv (multiUserStep gl targets st u).sel
        (multiUserStep gl targets st u).used) ∧
    (∀ x ∈ st.used, x ∈ (multiUserStep gl targets st u).used) ∧
    (∀ v h t, t ∈ st.gb v h →
      t.id ∈ (multiUserStep gl targets st u).used ∨
      t ∈ (multiUserStep gl targets st u).gb v h) ∧
    (∀ v t, t ∈ st.ob v →
      t.id ∈ (multiUserStep gl targets st u).used ∨
      t ∈ (multiUserStep gl targets st u).ob v) := by
  by_cases h0 : targets u = 0
  · rw [multiUserStep_target0 gl targets st u h0]
    exact ⟨fun h => h, fun x hx => hx, fun v h t ht => Or.inr ht,
      fun v t ht => Or.inr ht⟩
  · by_cases h1 : min (targets u)
        ((gl.map (fun g => (st.gb u g).length)).sum + (st.ob u).length) = 0
    · rw [multiUserStep_eff0 gl targets st u h1]
      exact ⟨fun h => h, fun x hx => hx, fun v h t ht => Or.inr ht,
        fun v t ht => Or.inr ht⟩
    · rw [multiUserStep_eq_go gl targets st u h0 h1]
      dsimp only
      set eff := min (targets u)
        ((gl.map (fun g => (st.gb u g).length)).sum + (st.ob u).length) with heff
      set desired := fun g =>
        eff / gl.length + (if g ∈ gl.take (eff % gl.length) then 1 else 0) with hdes
      set st1 := multiLoop1 u desired gl st with hst1
      obtain ⟨l1inv, l1mono, l1cons, l1ob⟩ := multiLoop1_spec u desired gl st
      set p2 := multiLoop2 u gl (st1, eff - st1.contrib u) with hp2
      obtain ⟨l2inv, l2mono, l2cons, l2ob⟩ :=
        multiLoop2_spec u gl (st1, eff - st1.contrib u)
      refine ⟨?_, ?_, ?_, ?_⟩
      · intro h
        exact UsedInv_takeGuard (l2inv (l1inv h)) p2.2 (p2.1.ob u)
      · intro x hx
        exact takeGuard_used_mono p2.1.used p2.2 (p2.1.ob u) x
          (l2mono x (l1mono x hx))
      · intro v h t ht
        rcases l1cons v h t ht with hc | hc
        · exact Or.inl (takeGuard_used_mono p2.1.used p2.2 (p2.1.ob u) t.id
            (l2mono t.id hc))
        · rcases l2cons v h t hc with hc2 | hc2
          · exact Or.inl (takeGuard_used_mono p2.1.used p2.2 (p2.1.ob u) t.id hc2)
          · exact Or.inr hc2
      · intro v t ht
        have htob : t ∈ p2.1.ob v := by
          rw [l2ob, l1ob]
          exact ht
        by_cases hv : v = u
        · subst hv
          rcases takeGuard_conserve p2.1.used p2.2 (p2.1.ob v) t htob with hc | hc
          · exact Or.inl hc
          · refine Or.inr ?_
            dsimp only
            rw [if_pos rfl]
            exact hc
        · refine Or.inr ?_
          dsimp only
          rw [if_neg hv]
          exact htob

lemma foldl_multiUserStep_spec (gl : List String) (targets : String → Nat) :
    ∀ (users : List String) (st : MultiSt),
      (UsedInv st.sel st.used →
        UsedInv (users.foldl (multiUserStep gl targets) st).sel
          (users.foldl (multiUserStep gl targets) st).used) ∧
      (∀ x ∈ st.used, x ∈ (users.foldl (multiUserStep gl targets) st).used) ∧
      (∀ v h t, t ∈ st.gb v h →
        t.id ∈ (users.foldl (multiUserStep gl targets) st).used ∨
        t ∈ (users.foldl (multiUserStep gl targets) st).gb v h) ∧
      (∀ v t, t ∈ st.ob v →
        t.id ∈ (users.foldl (multiUserStep gl targets) st).used ∨
        t ∈ (users.foldl (multiUserStep gl targets) st).ob v)
  | [], st => ⟨fun h => h, fun x hx => hx,
      fun v h t ht => Or.inr ht, fun v t ht => Or.inr ht⟩
  | u :: us, st => by
    rw [List.foldl_cons]
    obtain ⟨sinv, smono, sgb, sob⟩ := multiUserStep_spec gl targets st u
    obtain ⟨ihinv, ihmono, ihgb, ihob⟩ :=
      foldl_multiUserStep_spec gl targets us (multiUserStep gl targets st u)
    refine ⟨fun h => ihinv (sinv h), fun x hx => ihmono x (smono x hx), ?_, ?_⟩
    · intro v h t ht
      rcases sgb v h t ht with hc | hc
      · exact Or.inl (ihmono t.id hc)
      · exact ihgb v h t hc
    · intro v t ht
      rcases sob v t ht with hc | hc
      · exact Or.inl (ihmono t.id hc)
      · exact ihob v t hc

lemma bang_contains_iff (l : List String) (x : String) :
    (!(l.contains x)) = true ↔ x ∉ l := by
  cases hc : l.contains x
  · refine iff_of_true (by simp) (fun hmem => ?_)
    rw [(contains_eq_mem l x).mpr hmem] at hc
    cases hc
  · refine iff_of_false (by simp) (fun h => h ((contains_eq_mem l x).mp hc))

lemma singleFill_inv (n : Nat) (poolUsers : List String) (σ : Shuffles)
    (st : SingleSt) (h : UsedInv st.sel st.used) :
    UsedInv (singleFill n poolUsers σ st).sel (singleFill n poolUsers σ st).used := by
  rw [singleFill]
  split
  · exact (fillPool_spec n (fun _ gc => gc) _
      ⟨st.sel, st.used, st.contrib, fun _ => 0⟩).1 h
  · exact h

lemma singleEqualCore_inv (tracks : List Track) (n : Nat) (σ : Shuffles) :
    UsedInv (singleEqualCore tracks n σ).sel (singleEqualCore tracks n σ).used := by
  rw [singleEqualCore]
  split
  · exact UsedInv_nil
  · exact singleFill_inv _ _ _ _
      ((singlePhase1_spec _ _ _ _).1 UsedInv_nil)

lemma singleFocusCore_inv (tracks : List Track) (n : Nat)
    (w : List (String × Rat)) (σ : Shuffles) :
    UsedInv (singleFocusCore tracks n w σ).sel (singleFocusCore tracks n w σ).used := by
  rw [singleFocusCore]
  exact singleFill_inv _ _ _ _
    ((singlePhase1_spec _ _ _ _).1 UsedInv_nil)

lemma singleTail_ids_nodup (n : Nat) (gs gl : List String) (σ : Shuffles)
    (st : SingleSt) (hshf : ∀ l, (σ.shf l).Perm l)
    (h : UsedInv st.sel st.used) :
    (((singleTail n gs gl σ st).1).map (fun t => t.id)).Nodup := by
  rw [singleTail_fst]
  exact finalize_ids_nodup n σ _ hshf h.1

lemma multiPhase2_inv (n : Nat) (gl : List String) (σ : Shuffles)
    (users : List String) (st1 : MultiSt) (h : UsedInv st1.sel st1.used) :
    UsedInv (multiPhase2 n gl σ users st1).sel (multiPhase2 n gl σ users st1).used := by
  rw [multiPhase2]
  split
  · exact (fillPool_spec n _ _ ⟨st1.sel, st1.used, st1.contrib, st1.gcontrib⟩).1 h
  · exact h

/-- C2: the ids of the returned selection are pairwise distinct, on every
path of `allocate_tracks` (every addition to the selection is guarded by the
used-id set, and shuffling and truncation preserve distinctness). -/
theorem C2_no_duplicate_ids (tracks : List Track) (mode : Mode) (n : Nat)
    (w : List (String × Rat)) (gs : List String) (σ : Shuffles)
    (hshf : ∀ l, (σ.shf l).Perm l) :
    ((allocate_tracks tracks mode n w gs σ).1.map (fun t => t.id)).Nodup := by
  rw [allocate_tracks]
  by_cases he : tracks.isEmpty
  · rw [if_pos he]
    simp
  · rw [if_neg he]
    by_cases hml : 1 < (genreListOf tracks gs).length
    · rw [if_pos hml]
      rw [multiPath, multiEngine]
      refine finalize_ids_nodup n σ _ hshf ?_
      exact (multiPhase2_inv _ _ _ _ _
        ((foldl_multiUserStep_spec _ _ _ _).1 UsedInv_nil)).1
    · rw [if_neg hml]
      cases mode with
      | Equal =>
        rw [singlePath, singleEqualRun]
        exact singleTail_ids_nodup _ _ _ _ _ hshf (singleEqualCore_inv tracks n σ)
      | Focus =>
        rw [singlePath]
        split <;> split <;>
          first
            | (rw [singleEqualRun]
               exact singleTail_ids_nodup _ _ _ _ _ hshf (singleEqualCore_inv tracks n σ))
            | (exact singleTail_ids_nodup _ _ _ _ _ hshf (singleEqualCore_inv tracks n σ))
            | (exact singleTail_ids_nodup _ _ _ _ _ hshf (singleFocusCore_inv tracks n _ σ))

/-- Witness for C2 at a concrete input: two guests sharing one track id plus
a distinct one; the selection carries distinct ids. -/
theorem C2_no_duplicate_ids_witness :
    ((allocate_tracks
      [{ id := "s", user_id := "a" }, { id := "s", user_id := "b" },
       { id := "c", user_id := "b" }] Mode.Equal 3 [] [] idShuffles).1.map
        (fun t => t.id)).Nodup :=
  C2_no_duplicate_ids _ Mode.Equal 3 [] [] idShuffles idShuffles_perm.2.2

lemma distinctIds_le_length (pop sel : List Track)
    (hnd : (sel.map (fun t => t.id)).Nodup)
    (hsub : ∀ t ∈ pop, t.id ∈ sel.map (fun t => t.id)) :
    distinctIds pop ≤ sel.length := by
  have h1 : (dedupFirst (pop.map (fun t => t.id))).Nodup := dedupFirst_nodup _
  have h2 : ∀ x ∈ dedupFirst (pop.map (fun t => t.id)),
      x ∈ sel.map (fun t => t.id) := by
    intro x hx
    rcases List.mem_map.mp ((mem_dedupFirst _ x).mp hx) with ⟨t, ht, rfl⟩
    exact hsub t ht
  rw [distinctIds]
  calc (dedupFirst (pop.map (fun t => t.id))).length
      = (dedupFirst (pop.map (fun t => t.id))).toFinset.card :=
        (List.toFinset_card_of_nodup h1).symm
    _ ≤ (sel.map (fun t => t.id)).toFinset.card := by
        refine Finset.card_le_card ?_
        intro x hx
        exact List.mem_toFinset.mpr (h2 x (List.mem_toFinset.mp hx))
    _ = (sel.map (fun t => t.id)).length := List.toFinset_card_of_nodup hnd
    _ = sel.length := List.length_map _ _

lemma user_mem_usersInOrder (tracks : List Track) (t : Track) (ht : t ∈ tracks) :
    t.user_id ∈ usersInOrder tracks := by
  rw [usersInOrder, mem_dedupFirst]
  exact List.mem_map_of_mem _ ht

lemma user_mem_sortedUsers (tracks : List Track) (t : Track) (ht : t ∈ tracks) :
    t.user_id ∈ sortedUsers tracks := by
  rw [sortedUsers]
  exact (pySort_perm strLe (usersInOrder tracks)).mem_iff.mpr
    (user_mem_usersInOrder tracks t ht)

lemma usersInOrder_ne_nil (tracks : List Track) (he : ¬ tracks.isEmpty = true) :
    (usersInOrder tracks).isEmpty = false := by
  cases tracks with
  | nil => exact absurd rfl he
  | cons t ts =>
    have hmem : t.user_id ∈ usersInOrder (t :: ts) :=
      user_mem_usersInOrder (t :: ts) t (List.mem_cons_self t ts)
    cases h : usersInOrder (t :: ts) with
    | nil => rw [h] at hmem; exact absurd hmem (List.not_mem_nil _)
    | cons a as => rfl

/-- Every track lands in one of its owner's initial multi-genre buckets: the
bucket of its first matching selected genre, or the no-genre bucket. -/
lemma mem_init_buckets (tracks : List Track) (gl : List String) (t : Track)
    (ht : t ∈ tracks) :
    (∃ g ∈ gl, t ∈ initGB tracks gl t.user_id g) ∨
      t ∈ initOB tracks gl t.user_id := by
  cases hp : (presentGenres gl t).head? with
  | some g =>
    refine Or.inl ⟨g, ?_, ?_⟩
    · have hg : g ∈ presentGenres gl t := List.mem_of_mem_head? hp
      exact List.mem_of_mem_filter hg
    · simp only [initGB, List.mem_reverse, List.mem_filter]
      refine ⟨ht, ?_⟩
      rw [hp]
      simp
  | none =>
    refine Or.inr ?_
    simp only [initOB, List.mem_reverse, List.mem_filter]
    refine ⟨ht, ?_⟩
    rw [List.head?_eq_none_iff] at hp
    rw [hp]
    simp

lemma multiPhase2_used_mono (n : Nat) (gl : List String) (σ : Shuffles)
    (users : List String) (st1 : MultiSt) :
    ∀ x ∈ st1.used, x ∈ (multiPhase2 n gl σ users st1).used := by
  intro x hx
  rw [multiPhase2]
  split
  · exact (fillPool_spec n _ _ ⟨st1.sel, st1.used, st1.contrib, st1.gcontrib⟩).2.1 x hx
  · exact hx

lemma mem_multiPool (gl users : List String) (st1 : MultiSt) (t : Track) :
    t ∈ multiPool gl users st1 ↔
      ∃ u ∈ users, ((∃ g ∈ gl, t ∈ st1.gb u g) ∨ t ∈ st1.ob u) ∧
        t.id ∉ st1.used := by
  rw [multiPool]
  constructor
  · intro h
    rcases List.mem_flatMap.mp h with ⟨u, hu, hmem⟩
    rcases List.mem_append.mp hmem with hmem | hmem
    · rcases List.mem_flatMap.mp hmem with ⟨g, hg, hmem'⟩
      rw [List.mem_filter, List.mem_reverse] at hmem'
      exact ⟨u, hu, Or.inl ⟨g, hg, hmem'.1⟩, (bang_contains_iff _ _).mp hmem'.2⟩
    · rw [List.mem_filter, List.mem_reverse] at hmem
      exact ⟨u, hu, Or.inr hmem.1, (bang_contains_iff _ _).mp hmem.2⟩
  · rintro ⟨u, hu, hloc, hid⟩
    refine List.mem_flatMap.mpr ⟨u, hu, ?_⟩
    rcases hloc with ⟨g, hg, hmem⟩ | hmem
    · refine List.mem_append.mpr (Or.inl (List.mem_flatMap.mpr ⟨g, hg, ?_⟩))
      rw [List.mem_filter, List.mem_reverse]
      exact ⟨hmem, (bang_contains_iff _ _).mpr hid⟩
    · refine List.mem_append.mpr (Or.inr ?_)
      rw [List.mem_filter, List.mem_reverse]
      exact ⟨hmem, (bang_contains_iff _ _).mpr hid⟩

/-- If the multi-genre phase 2 still falls short of the target, every track
left in the phase-1 buckets has been marked used (it was offered in the pool
and the fill only stops when the pool is exhausted). -/
lemma multiPhase2_exhaust (n : Nat) (gl : List String) (σ : Shuffles)
    (users : List String) (st1 : MultiSt) (hshp : ∀ l, (σ.shp l).Perm l)
    (hlen : (multiPhase2 n gl σ users st1).sel.length < n) :
    ∀ u ∈ users, ∀ t,
      ((∃ g ∈ gl, t ∈ st1.gb u g) ∨ t ∈ st1.ob u) →
      t.id ∈ (multiPhase2 n gl σ users st1).used := by
  intro u hu t hloc
  by_cases hid : t.id ∈ st1.used
  · exact multiPhase2_used_mono n gl σ users st1 t.id hid
  · rw [multiPhase2] at hlen ⊢
    by_cases hfill : st1.sel.length < n
    · rw [if_pos hfill] at hlen ⊢
      refine (fillPool_spec n _ _
        ⟨st1.sel, st1.used, st1.contrib, st1.gcontrib⟩).2.2.2 hlen t ?_
      rw [List.mem_reverse]
      refine (hshp _).mem_iff.mpr ?_
      exact (mem_multiPool gl users st1 t).mpr ⟨u, hu, hloc, hid⟩
    · rw [if_neg hfill] at hlen
      exact absurd hlen hfill

/-- The multi-genre engine hits the target exactly whenever the track
population carries at least `n` distinct ids: phase 2 only stops short once
every bucket track's id is used, and the used ids are exactly the selected
ones. -/
lemma multiEngine_len (tracks : List Track) (n : Nat) (gl : List String)
    (σ : Shuffles) (targets : String → Nat) (hσ : permShuffles σ)
    (hd : n ≤ distinctIds tracks) :
    (multiEngine tracks n gl σ targets).1.length = n := by
  obtain ⟨hshu, hshp, hshf⟩ := hσ
  have hfst : (multiEngine tracks n gl σ targets).1 =
      finalize n σ (multiPhase2 n gl σ (sortedUsers tracks)
        ((sortedUsers tracks).foldl (multiUserStep gl targets)
          (multiSt0 tracks gl))).sel := rfl
  rw [hfst]
  set st1 := (sortedUsers tracks).foldl (multiUserStep gl targets)
    (multiSt0 tracks gl) with hst1
  set st2 := multiPhase2 n gl σ (sortedUsers tracks) st1 with hst2
  by_cases hlen : st2.sel.length < n
  · exfalso
    have hinv0 : UsedInv st1.sel st1.used :=
      (foldl_multiUserStep_spec gl targets (sortedUsers tracks)
        (multiSt0 tracks gl)).1 UsedInv_nil
    have hinv : UsedInv st2.sel st2.used := multiPhase2_inv n gl σ _ st1 hinv0
    have hcov : ∀ t ∈ tracks, t.id ∈ st2.sel.map (fun x => x.id) := by
      intro t ht
      obtain ⟨-, -, fgb, fob⟩ := foldl_multiUserStep_spec gl targets
        (sortedUsers tracks) (multiSt0 tracks gl)
      have hu : t.user_id ∈ sortedUsers tracks := user_mem_sortedUsers tracks t ht
      have hkey : t.id ∈ st2.used := by
        rcases mem_init_buckets tracks gl t ht with ⟨g, hg, hmem⟩ | hmem
        · rcases fgb t.user_id g t hmem with hc | hc
          · exact multiPhase2_used_mono n gl σ _ st1 t.id hc
          · exact multiPhase2_exhaust n gl σ _ st1 hshp hlen t.user_id hu t
              (Or.inl ⟨g, hg, hc⟩)
        · rcases fob t.user_id t hmem with hc | hc
          · exact multiPhase2_used_mono n gl σ _ st1 t.id hc
          · exact multiPhase2_exhaust n gl σ _ st1 hshp hlen t.user_id hu t
              (Or.inr hc)
      exact (hinv.2 t.id).mp hkey
    have := distinctIds_le_length tracks st2.sel hinv.1 hcov
    omega
  · exact finalize_length_eq n σ st2.sel hshf (Nat.le_of_not_lt hlen)

lemma singleEqualCore_eq (tracks : List Track) (n : Nat) (σ : Shuffles)
    (he : ¬ tracks.isEmpty = true) :
    singleEqualCore tracks n σ =
      singleFill n (usersInOrder tracks) σ
        (singlePhase1 (equalTargets n (usersInOrder tracks)) warnEqual
          (usersInOrder tracks)
          ⟨[], [], fun _ => 0, [], initialBuckets tracks σ⟩) := by
  have hne : ¬ (usersInOrder tracks).isEmpty = true := by
    rw [usersInOrder_ne_nil tracks he]
    simp
  simp only [singleEqualCore]
  rw [if_neg hne]

lemma mem_initialBuckets_self (tracks : List Track) (σ : Shuffles)
    (hshu : ∀ u l, (σ.shu u l).Perm l) (t : Track) (ht : t ∈ tracks) :
    t ∈ initialBuckets tracks σ t.user_id := by
  simp only [initialBuckets]
  refine (hshu _ _).mem_iff.mpr ?_
  rw [List.mem_filter]
  exact ⟨ht, by simp⟩

/-- The single-genre Equal run hits the target exactly whenever the track
population carries at least `n` distinct ids. -/
lemma singleEqualRun_len (tracks : List Track) (n : Nat) (gs gl : List String)
    (σ : Shuffles) (hσ : permShuffles σ) (he : ¬ tracks.isEmpty = true)
    (hd : n ≤ distinctIds tracks) :
    (singleEqualRun tracks n gs gl σ).1.length = n := by
  obtain ⟨hshu, hshp, hshf⟩ := hσ
  rw [singleEqualRun, singleTail_fst, singleEqualCore_eq tracks n σ he]
  set st0 : SingleSt := ⟨[], [], fun _ => 0, [], initialBuckets tracks σ⟩ with hst0
  set st1 := singlePhase1 (equalTargets n (usersInOrder tracks)) warnEqual
    (usersInOrder tracks) st0 with hst1
  set core := singleFill n (usersInOrder tracks) σ st1 with hcore
  by_cases hlen : core.sel.length < n
  · exfalso
    obtain ⟨p1inv, p1mono, p1cons, p1sel, p1rest, p1contrib⟩ :=
      singlePhase1_spec (equalTargets n (usersInOrder tracks)) warnEqual
        (usersInOrder tracks) st0
    obtain ⟨finv, fmono, fmem, fexh, fcontrib⟩ :=
      singleFill_spec n (usersInOrder tracks) σ st1 hshp
    have hinv : UsedInv core.sel core.used :=
      singleFill_inv n (usersInOrder tracks) σ st1 (p1inv UsedInv_nil)
    have hcov : ∀ t ∈ tracks, t.id ∈ core.sel.map (fun x => x.id) := by
      intro t ht
      have hu : t.user_id ∈ usersInOrder tracks := user_mem_usersInOrder tracks t ht
      have hbt : t ∈ st0.rest t.user_id :=
        mem_initialBuckets_self tracks σ hshu t ht
      have hkey : t.id ∈ core.used := by
        rcases p1cons t.user_id t hbt with hc | hc
        · exact fmono t.id hc
        · exact fexh hlen t.user_id hu t hc
      exact (hinv.2 t.id).mp hkey
    have := distinctIds_le_length tracks core.sel hinv.1 hcov
    omega
  · exact finalize_length_eq n σ core.sel hshf (Nat.le_of_not_lt hlen)

/-- The single-genre Focus run (positive active-weight sum) hits the target
exactly whenever the positive-weight guests' tracks carry at least `n`
distinct ids. -/
lemma singleFocusRun_len (tracks : List Track) (n : Nat)
    (w : List (String × Rat)) (gs gl : List String) (σ : Shuffles)
    (hσ : permShuffles σ)
    (hd : n ≤ distinctIds
      (tracks.filter (fun t => decide (0 < wlookup w t.user_id)))) :
    ((singleTail n gs gl σ (singleFocusCore tracks n w σ)).1).length = n := by
  obtain ⟨hshu, hshp, hshf⟩ := hσ
  rw [singleTail_fst]
  simp only [singleFocusCore]
  set st0 : SingleSt := ⟨[], [], fun _ => 0, [], initialBuckets tracks σ⟩ with hst0
  set targets := focusTargets n (wlookup w)
    (rsum ((activeUsers tracks w).map (wlookup w))) (activeUsers tracks w) with htg
  set st1 := singlePhase1 targets warnFocus (activeUsers tracks w) st0 with hst1
  set core := singleFill n (activeUsers tracks w) σ st1 with hcore
  by_cases hlen : core.sel.length < n
  · exfalso
    obtain ⟨p1inv, p1mono, p1cons, p1sel, p1rest, p1contrib⟩ :=
      singlePhase1_spec targets warnFocus (activeUsers tracks w) st0
    obtain ⟨finv, fmono, fmem, fexh, fcontrib⟩ :=
      singleFill_spec n (activeUsers tracks w) σ st1 hshp
    have hinv : UsedInv core.sel core.used :=
      singleFill_inv n (activeUsers tracks w) σ st1 (p1inv UsedInv_nil)
    have hcov : ∀ t ∈ tracks.filter (fun x => decide (0 < wlookup w x.user_id)),
        t.id ∈ core.sel.map (fun x => x.id) := by
      intro t ht
      rw [List.mem_filter] at ht
      obtain ⟨ht, hpos⟩ := ht
      rw [decide_eq_true_eq] at hpos
      have hu : t.user_id ∈ activeUsers tracks w := by
        rw [activeUsers, List.mem_filter]
        refine ⟨user_mem_usersInOrder tracks t ht, ?_⟩
        rw [decide_eq_true_eq]
        exact hpos
      have hbt : t ∈ st0.rest t.user_id :=
        mem_initialBuckets_self tracks σ hshu t ht
      have hkey : t.id ∈ core.used := by
        rcases p1cons t.user_id t hbt with hc | hc
        · exact fmono t.id hc
        · exact fexh hlen t.user_id hu t hc
      exact (hinv.2 t.id).mp hkey
    have := distinctIds_le_length
      (tracks.filter (fun x => decide (0 < wlookup w x.user_id)))
      core.sel hinv.1 hcov
    omega
  · exact finalize_length_eq n σ core.sel hshf (Nat.le_of_not_lt hlen)

lemma singlePath_equal (tracks : List Track) (n : Nat)
    (w : List (String × Rat)) (gs gl : List String) (σ : Shuffles) :
    singlePath tracks Mode.Equal n w gs gl σ =
      singleEqualRun tracks n gs gl σ := rfl

lemma singlePath_focus (tracks : List Track) (n : Nat)
    (w : List (String × Rat)) (gs gl : List String) (σ : Shuffles) :
    singlePath tracks Mode.Focus n w gs gl σ =
      if rsum ((activeUsers tracks
            (if w.isEmpty = true then defaultWeights tracks else w)).map
          (wlookup (if w.isEmpty = true then defaultWeights tracks else w))) ≤ 0
      then singleEqualRun tracks n gs gl σ
      else singleTail n gs gl σ
        (singleFocusCore tracks n
          (if w.isEmpty = true then defaultWeights tracks else w) σ) := rfl

/-- C1 (amended): for `target_size > 0` the selection never exceeds
`target_size`, and it reaches `target_size` exactly whenever the tracks that
can feed the taken path — ALL tracks except on the single-genre Focus path
with a positive active-weight sum, where only positive-weight guests' tracks
are eligible — carry at least `target_size` distinct ids.  (Counting the
distinct ids across all guests is not enough: see the counterexample.) -/
theorem C1_amended (tracks : List Track) (mode : Mode) (n : Nat)
    (w : List (String × Rat)) (gs : List String) (σ : Shuffles)
    (hσ : permShuffles σ) (hn : 0 < n) :
    (allocate_tracks tracks mode n w gs σ).1.length ≤ n ∧
    (n ≤ distinctIds (eligibleTracks tracks mode w gs) →
      (allocate_tracks tracks mode n w gs σ).1.length = n) := by
  constructor
  · rw [allocate_tracks]
    by_cases he : tracks.isEmpty
    · rw [if_pos he]
      exact Nat.zero_le n
    · rw [if_neg he]
      by_cases hml : 1 < (genreListOf tracks gs).length
      · rw [if_pos hml, multiPath]
        exact finalize_length_le n σ _
      · rw [if_neg hml]
        cases mode with
        | Equal =>
          rw [singlePath_equal, singleEqualRun, singleTail_fst]
          exact finalize_length_le n σ _
        | Focus =>
          rw [singlePath_focus]
          split <;> split <;> exact finalize_length_le n σ _
  · intro hd
    by_cases he : tracks.isEmpty
    · exfalso
      have h0 : distinctIds (eligibleTracks tracks mode w gs) = 0 := by
        rw [List.isEmpty_iff] at he
        subst he
        simp only [eligibleTracks]
        split
        · rfl
        · cases mode with
          | Equal => rfl
          | Focus =>
            dsimp only
            split
            · rfl
            · rfl
      omega
    · rw [allocate_tracks, if_neg he]
      by_cases hml : 1 < (genreListOf tracks gs).length
      · rw [if_pos hml, multiPath]
        have hel : eligibleTracks tracks mode w gs = tracks := by
          simp only [eligibleTracks]
          rw [if_pos hml]
        rw [hel] at hd
        exact multiEngine_len tracks n (genreListOf tracks gs) σ _ hσ hd
      · rw [if_neg hml]
        cases mode with
        | Equal =>
          have hel : eligibleTracks tracks Mode.Equal w gs = tracks := by
            simp only [eligibleTracks]
            rw [if_neg hml]
          rw [hel] at hd
          rw [singlePath_equal]
          exact singleEqualRun_len tracks n gs (genreListOf tracks gs) σ hσ he hd
        | Focus =>
          rw [singlePath_focus]
          by_cases hsum : rsum ((activeUsers tracks
              (if w.isEmpty = true then defaultWeights tracks else w)).map
            (wlookup (if w.isEmpty = true then defaultWeights tracks else w))) ≤ 0
          · rw [if_pos hsum]
            have hel : eligibleTracks tracks Mode.Focus w gs = tracks := by
              simp only [eligibleTracks]
              rw [if_neg hml, if_pos hsum]
            rw [hel] at hd
            exact singleEqualRun_len tracks n gs (genreListOf tracks gs) σ hσ he hd
          · rw [if_neg hsum]
            have hel : eligibleTracks tracks Mode.Focus w gs =
                tracks.filter (fun t => decide (0 < wlookup
                  (if w.isEmpty = true then defaultWeights tracks else w)
                  t.user_id)) := by
              simp only [eligibleTracks]
              rw [if_neg hml, if_neg hsum]
            rw [hel] at hd
            exact singleFocusRun_len tracks n _ gs (genreListOf tracks gs) σ hσ hd

/-- Witness for C1 (amended) at a concrete input: two guests with one track
each, Equal mode, target 2 — both bounds hold, and the eligible distinct-id
count (2) meets the target, forcing equality. -/
theorem C1_amended_witness :
    (allocate_tracks tracksC1 Mode.Equal 2 [] [] idShuffles).1.length ≤ 2 ∧
    (2 ≤ distinctIds (eligibleTracks tracksC1 Mode.Equal [] []) →
      (allocate_tracks tracksC1 Mode.Equal 2 [] [] idShuffles).1.length = 2) :=
  C1_amended tracksC1 Mode.Equal 2 [] [] idShuffles idShuffles_perm (by decide)

lemma mem_take_iff_indexOf : ∀ (l : List String) (k : Nat) (v : String),
    v ∈ l → (v ∈ l.take k ↔ l.indexOf v < k)
  | [], _, v, hv => absurd hv (List.not_mem_nil v)
  | a :: l, k, v, hv => by
    cases k with
    | zero => simp
    | succ m =>
      rw [List.take_succ_cons]
      by_cases hva : v = a
      · subst hva
        rw [List.indexOf_cons_self]
        simp
      · have hv' : v ∈ l := by
          rcases List.mem_cons.mp hv with h | h
          · exact absurd h hva
          · exact h
        rw [List.indexOf_cons_ne l (fun h => hva h.symm)]
        simp only [List.mem_cons]
        rw [mem_take_iff_indexOf l m v hv']
        constructor
        · rintro (h | h)
          · exact absurd h hva
          · omega
        · intro h
          right
          omega

/-- The Equal-mode target, with membership in the remainder prefix expressed
through the guest's position in the user list. -/
lemma equalTargets_eq_indexOf (n : Nat) (users : List String) (hne : users ≠ [])
    (v : String) (hv : v ∈ users) :
    equalTargets n users v =
      n / users.length +
        (if users.indexOf v < n % users.length then 1 else 0) := by
  have h1 : equalTargets n users = fun u =>
      n / users.length +
        (if u ∈ users.take (n % users.length) then 1 else 0) := by
    rw [equalTargets, if_neg ?_]
    rw [isEmpty_false_of_ne_nil hne]
    simp
  rw [h1]
  show n / users.length +
      (if v ∈ users.take (n % users.length) then 1 else 0) = _
  congr 1
  by_cases h : users.indexOf v < n % users.length
  · rw [if_pos ((mem_take_iff_indexOf users _ v hv).mpr h), if_pos h]
  · rw [if_neg (fun hm => h ((mem_take_iff_indexOf users _ v hv).mp hm)), if_neg h]

lemma usersInOrder_ne_nil' (tracks : List Track) (he : ¬ tracks.isEmpty = true) :
    usersInOrder tracks ≠ [] := by
  intro h
  have := usersInOrder_ne_nil tracks he
  rw [h] at this
  simp at this

lemma sortedUsers_ne_nil (tracks : List Track) (he : ¬ tracks.isEmpty = true) :
    sortedUsers tracks ≠ [] := by
  intro h
  refine usersInOrder_ne_nil' tracks he ?_
  have hp := pySort_perm strLe (usersInOrder tracks)
  rw [sortedUsers] at h
  rw [h] at hp
  exact hp.symm.eq_nil

/-- C5 (amended): in Equal mode every guest's target is `target_size`
integer-divided by the guest count, plus one extra exactly when the guest
sits among the first `target_size mod guest_count` entries of the governing
user list.  On the single-genre path that list is the first-appearance
(entered) guest order, but the multi-genre path first sorts the guests
alphabetically (`users = sorted(list(users_set))`), so there the extras go to
the alphabetically first guests, not the first-entered ones — see the
counterexample. -/
theorem C5_amended (tracks : List Track) (n : Nat) (w : List (String × Rat))
    (he : ¬ tracks.isEmpty = true) :
    (∀ v ∈ usersInOrder tracks,
      equalTargets n (usersInOrder tracks) v =
        n / (usersInOrder tracks).length +
          (if (usersInOrder tracks).indexOf v < n % (usersInOrder tracks).length
           then 1 else 0)) ∧
    (∀ v ∈ sortedUsers tracks,
      userTargetsMulti Mode.Equal w n (sortedUsers tracks) v =
        n / (sortedUsers tracks).length +
          (if (sortedUsers tracks).indexOf v < n % (sortedUsers tracks).length
           then 1 else 0)) ∧
    (sortedUsers tracks).Perm (usersInOrder tracks) ∧
    List.Pairwise (fun a b => strLe a b = true) (sortedUsers tracks) := by
  refine ⟨?_, ?_, ?_, ?_⟩
  · intro v hv
    exact equalTargets_eq_indexOf n (usersInOrder tracks)
      (usersInOrder_ne_nil' tracks he) v hv
  · intro v hv
    show equalTargets n (sortedUsers tracks) v = _
    exact equalTargets_eq_indexOf n (sortedUsers tracks)
      (sortedUsers_ne_nil tracks he) v hv
  · rw [sortedUsers]
    exact pySort_perm strLe (usersInOrder tracks)
  · rw [sortedUsers]
    exact pySort_pairwise strLe strLe_trans strLe_total (usersInOrder tracks)

/-- Witness for C5 (amended) at a concrete input: guests entered b before a,
target 3 — per-guest targets follow position in the governing list. -/
theorem C5_amended_witness :
    (∀ v ∈ usersInOrder tracksC5,
      equalTargets 3 (usersInOrder tracksC5) v =
        3 / (usersInOrder tracksC5).length +
          (if (usersInOrder tracksC5).indexOf v < 3 % (usersInOrder tracksC5).length
           then 1 else 0)) ∧
    (∀ v ∈ sortedUsers tracksC5,
      userTargetsMulti Mode.Equal [] 3 (sortedUsers tracksC5) v =
        3 / (sortedUsers tracksC5).length +
          (if (sortedUsers tracksC5).indexOf v < 3 % (sortedUsers tracksC5).length
           then 1 else 0)) ∧
    (sortedUsers tracksC5).Perm (usersInOrder tracksC5) ∧
    List.Pairwise (fun a b => strLe a b = true) (sortedUsers tracksC5) :=
  C5_amended tracksC5 3 [] (by decide)

/-- `exact_target` of the Focus target block. -/
def fexact (n : Nat) (wf : String → Rat) (total_w : Rat) (u : String) : Rat :=
  rmul (n : Rat) (rdiv (wf u) total_w)

/-- `int(exact_target)` of the Focus target block. -/
def fbase (n : Nat) (wf : String → Rat) (total_w : Rat) (u : String) : Nat :=
  (pyInt (fexact n wf total_w u)).toNat

/-- The fractional remainder paired into `fractional`. -/
def ffrac (n : Nat) (wf : String → Rat) (total_w : Rat) (u : String) : Rat :=
  rsub (fexact n wf total_w u) ((fbase n wf total_w u : Nat) : Rat)

/-- The guests awarded `+1` by the largest-remainder step. -/
def fplus (n : Nat) (wf : String → Rat) (total_w : Rat) (users : List String) :
    List String :=
  ((pySort descFracLe (users.map (fun u => (ffrac n wf total_w u, u)))).take
    (n - (users.map (fbase n wf total_w)).sum)).map (fun p => p.2)

lemma focusTargets_eq (n : Nat) (wf : String → Rat) (total_w : Rat)
    (users : List String) (u : String) :
    focusTargets n wf total_w users u =
      fbase n wf total_w u +
        (if u ∈ fplus n wf total_w users then 1 else 0) := rfl

lemma fexact_eq (n : Nat) (wf : String → Rat) (total_w : Rat) (u : String) :
    fexact n wf total_w u = (n : Rat) * (wf u / total_w) := by
  rw [fexact, rmul_eq, rdiv_eq]

lemma list_sum_map_sub {α : Type _} : ∀ (l : List α) (f g : α → Rat),
    (l.map (fun x => f x - g x)).sum = (l.map f).sum - (l.map g).sum
  | [], _, _ => by simp
  | a :: as, f, g => by
    simp only [List.map_cons, List.sum_cons, list_sum_map_sub as f g]
    ring

lemma list_sum_map_mul_left {α : Type _} : ∀ (l : List α) (c : Rat) (f : α → Rat),
    (l.map (fun x => c * f x)).sum = c * (l.map f).sum
  | [], _, _ => by simp
  | a :: as, c, f => by
    simp only [List.map_cons, List.sum_cons, list_sum_map_mul_left as c f]
    ring

lemma list_sum_map_le {α : Type _} : ∀ (l : List α) (f g : α → Rat),
    (∀ x ∈ l, f x ≤ g x) → (l.map f).sum ≤ (l.map g).sum
  | [], _, _, _ => le_refl _
  | a :: as, f, g, h => by
    simp only [List.map_cons, List.sum_cons]
    have h1 := h a (List.mem_cons_self a as)
    have h2 := list_sum_map_le as f g (fun x hx => h x (List.mem_cons_of_mem a hx))
    linarith

lemma list_sum_nonpos : ∀ {l : List Rat}, (∀ x ∈ l, x ≤ 0) → l.sum ≤ 0
  | [], _ => le_refl _
  | a :: as, h => by
    simp only [List.sum_cons]
    have h1 := h a (List.mem_cons_self a as)
    have h2 := list_sum_nonpos (fun x hx => h x (List.mem_cons_of_mem a hx))
    linarith

lemma list_sum_lt_length : ∀ (l : List Rat), l ≠ [] → (∀ x ∈ l, x < 1) →
    l.sum < (l.length : Rat)
  | [], hne, _ => absurd rfl hne
  | [a], _, h => by
    simp only [List.sum_cons, List.sum_nil, add_zero, List.length_cons,
      List.length_nil]
    have := h a (List.mem_cons_self a [])
    push_cast
    linarith
  | a :: b :: bs, _, h => by
    have hih := list_sum_lt_length (b :: bs) (List.cons_ne_nil b bs)
      (fun x hx => h x (List.mem_cons_of_mem a hx))
    have ha := h a (List.mem_cons_self a (b :: bs))
    rw [List.sum_cons, List.length_cons]
    push_cast
    push_cast at hih
    linarith

lemma list_sum_map_add_nat {α : Type _} : ∀ (l : List α) (f g : α → Nat),
    (l.map (fun x => f x + g x)).sum = (l.map f).sum + (l.map g).sum
  | [], _, _ => rfl
  | a :: as, f, g => by
    simp only [List.map_cons, List.sum_cons, list_sum_map_add_nat as f g]
    omega

lemma list_sum_if_mem : ∀ (users S : List String),
    (users.map (fun u => if u ∈ S then (1 : Nat) else 0)).sum =
      (users.filter (fun u => decide (u ∈ S))).length
  | [], _ => rfl
  | a :: as, S => by
    simp only [List.map_cons, List.sum_cons, List.filter_cons]
    by_cases h : a ∈ S
    · rw [if_pos h, if_pos (decide_eq_true h), List.length_cons,
        list_sum_if_mem as S]
      omega
    · rw [if_neg h, if_neg (fun hd => h (of_decide_eq_true hd)),
        list_sum_if_mem as S]
      omega

lemma filter_mem_perm (users S : List String) (hnd : users.Nodup)
    (hSnd : S.Nodup) (hsub : ∀ x ∈ S, x ∈ users) :
    (users.filter (fun u => decide (u ∈ S))).Perm S := by
  refine List.perm_of_nodup_nodup_toFinset_eq (hnd.filter _) hSnd ?_
  ext x
  simp only [List.mem_toFinset, List.mem_filter, decide_eq_true_eq]
  constructor
  · rintro ⟨_, h2⟩
    exact h2
  · intro h
    exact ⟨hsub x h, h⟩

lemma fbase_cast (n : Nat) (wf : String → Rat) (total_w : Rat) (u : String)
    (h : 0 ≤ fexact n wf total_w u) :
    ((fbase n wf total_w u : Nat) : Rat) =
      (((fexact n wf total_w u).floor : Int) : Rat) := by
  have hfl : 0 ≤ (fexact n wf total_w u).floor := Int.floor_nonneg.mpr h
  have h1 : ((fbase n wf total_w u : Nat) : Int) = (fexact n wf total_w u).floor := by
    rw [fbase, pyInt_eq_floor _ h, Int.toNat_of_nonneg hfl]
  rw [← h1]
  push_cast
  rfl

lemma ffrac_eq (n : Nat) (wf : String → Rat) (total_w : Rat) (u : String)
    (h : 0 ≤ fexact n wf total_w u) :
    ffrac n wf total_w u = Int.fract (fexact n wf total_w u) := by
  rw [ffrac, rsub_eq, fbase_cast n wf total_w u h, Int.fract]
  rfl

lemma sum_fexact (n : Nat) (wf : String → Rat) (total_w : Rat)
    (users : List String) (htot : total_w = rsum (users.map wf))
    (hpos : 0 < total_w) :
    (users.map (fexact n wf total_w)).sum = n := by
  have h1 : users.map (fexact n wf total_w)
      = users.map (fun u => ((n : Rat) / total_w) * wf u) := by
    refine List.map_congr_left ?_
    intro u _
    rw [fexact_eq]
    ring
  rw [h1, list_sum_map_mul_left]
  have h2 : (users.map wf).sum = total_w := by
    rw [htot, rsum_eq]
  rw [h2]
  exact div_mul_cancel₀ _ (ne_of_gt hpos)

/-- C6 (amended): in Focus mode with nonnegative weights summing positively
over the governed user list (both call sites arrange exactly this: the
multi-genre path clamps negatives to 0 over the sorted users, the
single-genre path restricts to the positive-weight guests), a zero-weight
guest's target is 0; every target is the floor of
`target_size * weight / total` or that floor plus one; the targets sum to
`target_size`; and the `+1` extras go to the largest fractional remainders
with ties broken by DESCENDING username (`fractional.sort(reverse=True)`
sorts the `(fraction, username)` tuples), not by guest list order — see the
counterexample. -/
theorem C6_amended (n : Nat) (wf : String → Rat) (total_w : Rat)
    (users : List String) (hnd : users.Nodup)
    (hw : ∀ u ∈ users, 0 ≤ wf u)
    (htot : total_w = rsum (users.map wf)) (hpos : 0 < total_w) :
    (∀ u ∈ users, wf u = 0 → focusTargets n wf total_w users u = 0) ∧
    (∀ u ∈ users,
      pyInt (rmul (n : Rat) (rdiv (wf u) total_w)) =
        ((n : Rat) * (wf u / total_w)).floor ∧
      (focusTargets n wf total_w users u =
          (((n : Rat) * (wf u / total_w)).floor).toNat ∨
        focusTargets n wf total_w users u =
          (((n : Rat) * (wf u / total_w)).floor).toNat + 1)) ∧
    (users.map (focusTargets n wf total_w users)).sum = n ∧
    (∀ u ∈ users, ∀ v ∈ users,
      focusTargets n wf total_w users u =
        (((n : Rat) * (wf u / total_w)).floor).toNat + 1 →
      focusTargets n wf total_w users v =
        (((n : Rat) * (wf v / total_w)).floor).toNat →
      (Int.fract ((n : Rat) * (wf v / total_w)) <
          Int.fract ((n : Rat) * (wf u / total_w)) ∨
        (Int.fract ((n : Rat) * (wf v / total_w)) =
            Int.fract ((n : Rat) * (wf u / total_w)) ∧
          strLe v u = true))) := by
  have husers_ne : users ≠ [] := by
    intro h
    subst h
    rw [htot] at hpos
    exact lt_irrefl 0 hpos
  have hexnn : ∀ u ∈ users, 0 ≤ fexact n wf total_w u := by
    intro u hu
    rw [fexact_eq]
    exact mul_nonneg (Nat.cast_nonneg n) (div_nonneg (hw u hu) (le_of_lt hpos))
  have hfr : ∀ u ∈ users, ffrac n wf total_w u = Int.fract (fexact n wf total_w u) :=
    fun u hu => ffrac_eq n wf total_w u (hexnn u hu)
  have hfr01 : ∀ u ∈ users,
      0 ≤ ffrac n wf total_w u ∧ ffrac n wf total_w u < 1 := by
    intro u hu
    rw [hfr u hu]
    exact ⟨Int.fract_nonneg _, Int.fract_lt_one _⟩
  set assigned := (users.map (fbase n wf total_w)).sum with hassigned
  set leftover := n - assigned with hleftover
  set fractional := users.map (fun u => (ffrac n wf total_w u, u)) with hfractional
  set sorted := pySort descFracLe fractional with hsortedd
  have hplus_eq : fplus n wf total_w users =
      (sorted.take leftover).map (fun p => p.2) := rfl
  have hmem_fr : ∀ p ∈ fractional,
      p = (ffrac n wf total_w p.2, p.2) ∧ p.2 ∈ users := by
    intro p hp
    rw [hfractional] at hp
    rcases List.mem_map.mp hp with ⟨v, hv, rfl⟩
    exact ⟨rfl, hv⟩
  have hsorted_perm : sorted.Perm fractional := pySort_perm descFracLe fractional
  have hmem_sorted : ∀ p ∈ sorted,
      p = (ffrac n wf total_w p.2, p.2) ∧ p.2 ∈ users :=
    fun p hp => hmem_fr p (hsorted_perm.mem_iff.mp hp)
  have hsum_exact : (users.map (fexact n wf total_w)).sum = n :=
    sum_fexact n wf total_w users htot hpos
  have hbase_le : ∀ u ∈ users,
      ((fbase n wf total_w u : Nat) : Rat) ≤ fexact n wf total_w u := by
    intro u hu
    rw [fbase_cast n wf total_w u (hexnn u hu)]
    exact Int.floor_le _
  have hassigned_le : assigned ≤ n := by
    have h1 : ((assigned : Nat) : Rat) ≤ (n : Rat) := by
      rw [hassigned]
      calc (((users.map (fbase n wf total_w)).sum : Nat) : Rat)
          = (users.map (fun u => ((fbase n wf total_w u : Nat) : Rat))).sum := by
            rw [Nat.cast_list_sum, List.map_map]
            rfl
        _ ≤ (users.map (fexact n wf total_w)).sum :=
            list_sum_map_le users _ _ hbase_le
        _ = n := hsum_exact
    exact_mod_cast h1
  have hleft_cast : ((leftover : Nat) : Rat) = (n : Rat) - (assigned : Nat) := by
    rw [hleftover, Nat.cast_sub hassigned_le]
  have hsum_frac : (fractional.map (fun p => p.1)).sum
      = (n : Rat) - (assigned : Nat) := by
    rw [hfractional, List.map_map]
    have hcomp : ((fun p : Rat × String => p.1) ∘
        fun u => (ffrac n wf total_w u, u)) = fun u => ffrac n wf total_w u := rfl
    rw [hcomp]
    have h2 : users.map (fun u => ffrac n wf total_w u)
        = users.map (fun u => fexact n wf total_w u
            - ((fbase n wf total_w u : Nat) : Rat)) := by
      refine List.map_congr_left ?_
      intro u _
      rw [ffrac, rsub_eq]
    rw [h2, list_sum_map_sub, hsum_exact]
    congr 1
    rw [hassigned, Nat.cast_list_sum, List.map_map]
    rfl
  have hsum_sorted : (sorted.map (fun p => p.1)).sum
      = (n : Rat) - (assigned : Nat) := by
    rw [← hsum_frac]
    exact (hsorted_perm.map (fun p => p.1)).sum_eq
  have hlen_sorted : sorted.length = users.length := by
    rw [hsorted_perm.length_eq, hfractional, List.length_map]
  have hleft_le : leftover ≤ users.length := by
    by_cases h0 : leftover = 0
    · omega
    · have hlt : (fractional.map (fun p => p.1)).sum
          < ((fractional.map (fun p => p.1)).length : Rat) := by
        refine list_sum_lt_length _ ?_ ?_
        · intro h
          rw [List.map_eq_nil_iff, hfractional, List.map_eq_nil_iff] at h
          exact husers_ne h
        · intro x hx
          rcases List.mem_map.mp hx with ⟨p, hp, rfl⟩
          obtain ⟨hpe, hpu⟩ := hmem_fr p hp
          rw [hpe]
          exact (hfr01 p.2 hpu).2
      rw [hsum_frac, List.length_map, hfractional, List.length_map] at hlt
      have hq : ((leftover : Nat) : Rat) < (users.length : Rat) := by
        rw [hleft_cast]
        exact hlt
      exact le_of_lt (by exact_mod_cast hq)
  have hplus_len : (fplus n wf total_w users).length = leftover := by
    rw [hplus_eq, List.length_map, List.length_take, hlen_sorted]
    exact Nat.min_eq_left hleft_le
  have hsortedsnd_perm : (sorted.map (fun p => p.2)).Perm users := by
    refine (hsorted_perm.map (fun p => p.2)).trans ?_
    rw [hfractional, List.map_map]
    have hcomp : ((fun p : Rat × String => p.2) ∘
        fun u => (ffrac n wf total_w u, u)) = id := rfl
    rw [hcomp, List.map_id]
  have hplus_nodup : (fplus n wf total_w users).Nodup := by
    rw [hplus_eq]
    have hnd2 : (sorted.map (fun p => p.2)).Nodup :=
      hsortedsnd_perm.nodup_iff.mpr hnd
    exact hnd2.sublist ((List.take_sublist leftover sorted).map _)
  have hplus_sub : ∀ x ∈ fplus n wf total_w users, x ∈ users := by
    intro x hx
    rw [hplus_eq] at hx
    rcases List.mem_map.mp hx with ⟨p, hp, rfl⟩
    exact (hmem_sorted p (List.mem_of_mem_take hp)).2
  have hmem_plus : ∀ u ∈ users, u ∈ fplus n wf total_w users →
      (ffrac n wf total_w u, u) ∈ sorted.take leftover := by
    intro u _ hmem
    rw [hplus_eq] at hmem
    rcases List.mem_map.mp hmem with ⟨p, hp, hp2⟩
    obtain ⟨hpe, -⟩ := hmem_sorted p (List.mem_of_mem_take hp)
    rw [hpe] at hp
    rw [hp2] at hp
    exact hp
  have hpw := pySort_pairwise descFracLe descFracLe_trans descFracLe_total fractional
  have hzero_notin : ∀ u ∈ users, wf u = 0 → u ∉ fplus n wf total_w users := by
    intro u hu h0 hmem
    have hex0 : fexact n wf total_w u = 0 := by
      rw [fexact_eq, h0]
      simp
    have hfrac0 : ffrac n wf total_w u = 0 := by
      rw [hfr u hu, hex0]
      exact Int.fract_zero
    have hq := hmem_plus u hu hmem
    rw [hfrac0] at hq
    have hsumTD : ((sorted.take leftover).map (fun p => p.1)).sum
        + ((sorted.drop leftover).map (fun p => p.1)).sum
        = (n : Rat) - (assigned : Nat) := by
      rw [← hsum_sorted]
      conv_rhs => rw [← List.take_append_drop leftover sorted]
      rw [List.map_append, List.sum_append]
    have hDle : ((sorted.drop leftover).map (fun p => p.1)).sum ≤ 0 := by
      refine list_sum_nonpos ?_
      intro x hx
      rcases List.mem_map.mp hx with ⟨p, hp, rfl⟩
      have h1 := pairwise_take_drop hpw leftover _ hq _ hp
      rw [descFracLe, Bool.or_eq_true, Bool.and_eq_true, decide_eq_true_eq,
        decide_eq_true_eq] at h1
      rcases h1 with h1 | ⟨h1, -⟩
      · exact le_of_lt h1
      · exact le_of_eq h1.symm
    have hTlt : ((sorted.take leftover).map (fun p => p.1)).sum
        < (((sorted.take leftover).map (fun p => p.1)).length : Rat) := by
      refine list_sum_lt_length _ ?_ ?_
      · intro h
        rw [List.map_eq_nil_iff] at h
        rw [h] at hq
        exact List.not_mem_nil _ hq
      · intro x hx
        rcases List.mem_map.mp hx with ⟨p, hp, rfl⟩
        obtain ⟨hpe, hpu⟩ := hmem_sorted p (List.mem_of_mem_take hp)
        rw [hpe]
        exact (hfr01 p.2 hpu).2
    have hTlen : (((sorted.take leftover).map (fun p => p.1)).length : Rat)
        ≤ ((leftover : Nat) : Rat) := by
      have h1 : ((sorted.take leftover).map (fun p => p.1)).length ≤ leftover := by
        rw [List.length_map, List.length_take]
        exact Nat.min_le_left _ _
      exact_mod_cast h1
    rw [hleft_cast] at hTlen
    linarith
  have htarget_zero : ∀ u ∈ users, wf u = 0 →
      focusTargets n wf total_w users u = 0 := by
    intro u hu h0
    rw [focusTargets_eq, if_neg (hzero_notin u hu h0)]
    have hex0 : fexact n wf total_w u = 0 := by
      rw [fexact_eq, h0]
      simp
    rw [fbase, hex0]
    decide
  have hfloor : ∀ u ∈ users,
      pyInt (rmul (n : Rat) (rdiv (wf u) total_w)) =
        ((n : Rat) * (wf u / total_w)).floor := by
    intro u hu
    have h1 : rmul (n : Rat) (rdiv (wf u) total_w) = (n : Rat) * (wf u / total_w) := by
      rw [rmul_eq, rdiv_eq]
    have h2 : 0 ≤ (n : Rat) * (wf u / total_w) := by
      rw [← fexact_eq]
      exact hexnn u hu
    rw [h1]
    exact pyInt_eq_floor _ h2
  have hbase_floor : ∀ u ∈ users,
      fbase n wf total_w u = (((n : Rat) * (wf u / total_w)).floor).toNat := by
    intro u hu
    rw [fbase, fexact, hfloor u hu]
  have hdisj : ∀ u ∈ users,
      focusTargets n wf total_w users u =
          (((n : Rat) * (wf u / total_w)).floor).toNat ∨
        focusTargets n wf total_w users u =
          (((n : Rat) * (wf u / total_w)).floor).toNat + 1 := by
    intro u hu
    rw [focusTargets_eq, hbase_floor u hu]
    by_cases h : u ∈ fplus n wf total_w users
    · right
      rw [if_pos h]
    · left
      rw [if_neg h, Nat.add_zero]
  have hsum_t : (users.map (focusTargets n wf total_w users)).sum = n := by
    have h1 : users.map (focusTargets n wf total_w users)
        = users.map (fun u => fbase n wf total_w u
            + (if u ∈ fplus n wf total_w users then 1 else 0)) := by
      refine List.map_congr_left ?_
      intro u _
      rw [focusTargets_eq]
    rw [h1, list_sum_map_add_nat, list_sum_if_mem users (fplus n wf total_w users),
      (filter_mem_perm users _ hnd hplus_nodup hplus_sub).length_eq, hplus_len]
    have h2 : (users.map (fun u => fbase n wf total_w u)).sum = assigned := rfl
    rw [h2]
    omega
  have htie : ∀ u ∈ users, ∀ v ∈ users,
      focusTargets n wf total_w users u =
        (((n : Rat) * (wf u / total_w)).floor).toNat + 1 →
      focusTargets n wf total_w users v =
        (((n : Rat) * (wf v / total_w)).floor).toNat →
      (Int.fract ((n : Rat) * (wf v / total_w)) <
          Int.fract ((n : Rat) * (wf u / total_w)) ∨
        (Int.fract ((n : Rat) * (wf v / total_w)) =
            Int.fract ((n : Rat) * (wf u / total_w)) ∧
          strLe v u = true)) := by
    intro u hu v hv h1 h2
    have hu_in : u ∈ fplus n wf total_w users := by
      by_contra h
      rw [focusTargets_eq, hbase_floor u hu, if_neg h] at h1
      omega
    have hv_out : v ∉ fplus n wf total_w users := by
      intro h
      rw [focusTargets_eq, hbase_floor v hv, if_pos h] at h2
      omega
    have hq := hmem_plus u hu hu_in
    have hvp : (ffrac n wf total_w v, v) ∈ sorted.drop leftover := by
      have hmemv : (ffrac n wf total_w v, v) ∈ sorted := by
        refine hsorted_perm.mem_iff.mpr ?_
        rw [hfractional]
        exact List.mem_map.mpr ⟨v, hv, rfl⟩
      have hnt : (ffrac n wf total_w v, v) ∉ sorted.take leftover := by
        intro h
        refine hv_out ?_
        rw [hplus_eq]
        exact List.mem_map.mpr ⟨(ffrac n wf total_w v, v), h, rfl⟩
      have hsplit : (ffrac n wf total_w v, v) ∈
          sorted.take leftover ++ sorted.drop leftover := by
        rw [List.take_append_drop]
        exact hmemv
      rcases List.mem_append.mp hsplit with h | h
      · exact absurd h hnt
      · exact h
    have hrel := pairwise_take_drop hpw leftover _ hq _ hvp
    rw [descFracLe, Bool.or_eq_true, Bool.and_eq_true, decide_eq_true_eq,
      decide_eq_true_eq] at hrel
    dsimp only at hrel
    rw [hfr u hu, hfr v hv, fexact_eq, fexact_eq] at hrel
    rcases hrel with h | ⟨heq, hle⟩
    · exact Or.inl h
    · exact Or.inr ⟨heq.symm, hle⟩
  exact ⟨htarget_zero, fun u hu => ⟨hfloor u hu, hdisj u hu⟩, hsum_t, htie⟩

/-- The clamped weight map of the C6 witness: two guests of weight 1. -/
def wC6 : String → Rat := fun u => max 0 (wlookup [("a", (1 : Rat)), ("b", 1)] u)

/-- Witness for C6 (amended) at a concrete input: guests a, b with equal
weights, target 1 and total weight 2 — all four target properties hold. -/
theorem C6_amended_witness :
    (∀ u ∈ ["a", "b"], wC6 u = 0 → focusTargets 1 wC6 2 ["a", "b"] u = 0) ∧
    (∀ u ∈ ["a", "b"],
      pyInt (rmul ((1 : Nat) : Rat) (rdiv (wC6 u) 2)) =
        (((1 : Nat) : Rat) * (wC6 u / 2)).floor ∧
      (focusTargets 1 wC6 2 ["a", "b"] u =
          ((((1 : Nat) : Rat) * (wC6 u / 2)).floor).toNat ∨
        focusTargets 1 wC6 2 ["a", "b"] u =
          ((((1 : Nat) : Rat) * (wC6 u / 2)).floor).toNat + 1)) ∧
    (["a", "b"].map (focusTargets 1 wC6 2 ["a", "b"])).sum = 1 ∧
    (∀ u ∈ ["a", "b"], ∀ v ∈ ["a", "b"],
      focusTargets 1 wC6 2 ["a", "b"] u =
        ((((1 : Nat) : Rat) * (wC6 u / 2)).floor).toNat + 1 →
      focusTargets 1 wC6 2 ["a", "b"] v =
        ((((1 : Nat) : Rat) * (wC6 v / 2)).floor).toNat →
      (Int.fract (((1 : Nat) : Rat) * (wC6 v / 2)) <
          Int.fract (((1 : Nat) : Rat) * (wC6 u / 2)) ∨
        (Int.fract (((1 : Nat) : Rat) * (wC6 v / 2)) =
            Int.fract (((1 : Nat) : Rat) * (wC6 u / 2)) ∧
          strLe v u = true))) :=
  C6_amended 1 wC6 2 ["a", "b"] (by decide) (by decide) (by decide) (by decide)
